import Mathlib

/-!
Verification of the message aggregation engine of `roci-matrix`
(`src/utils/message-aggregator.ts`).

The aggregator buffers a text message per `"roomId:senderId"` key, waiting a
bounded window for a follow-up image/file from the same sender.  The embedding
below is a shallow state-machine model: the class's mutable fields become an
explicit `AggState`, every method becomes a pure function on that state, and
all observable behaviour (timer scheduling/cancellation, promise resolution,
caller-supplied callback invocations) is recorded in an `Effect` log.  The
caller-supplied callbacks, which the aggregator only ever invokes and never
inspects, are represented by opaque identifiers (`Nat`); promise resolution of
a suspended `handleText` caller is likewise identified by the fresh id
allocated when the entry was created (one id serves as `timeoutId`, as the
identity of the `resolve` closure, and as the identity of the pending entry).
-/

/-- `AggregationState` from `message-aggregator.ts` (lines 24-31). -/
inductive AggregationState where
  | WAITING_FOR_MEDIA
  | COMBINED_WITH_MEDIA
  | PROCESSED_AS_TEXT
deriving DecidableEq

/-- The part of a Matrix event's `content` the aggregator reads
(`types.ts`, `MatrixMessageEvent.content`). -/
structure MessageContent where
  msgtype : String
  body : String
deriving DecidableEq

/-- `MatrixMessageEvent` from `types.ts`, restricted to the fields the
aggregator reads (`event_id`, `sender`, `room_id`, `content.body`). -/
structure MatrixMessageEvent where
  event_id : String
  sender : String
  room_id : String
  content : MessageContent
deriving DecidableEq

/-- `PendingEntry` from `message-aggregator.ts` (lines 36-45).  The
`resolve` closure is modelled by the id of the suspended caller's promise;
`onTextOnly` is the opaque id of the stored callback. -/
structure PendingEntry where
  state : AggregationState
  roomId : String
  event : MatrixMessageEvent
  timeoutId : Nat
  resolve : Nat
  onTextOnly : Nat
deriving DecidableEq

/-- `ClaimResult` from `message-aggregator.ts` (lines 60-64): the optional
fields are `Option`s. -/
structure ClaimResult where
  success : Bool
  event : Option MatrixMessageEvent
  textContent : Option String
deriving DecidableEq

/-- An active `setTimeout` handle.  The callback registered by `handleText`
(lines 212-216) closes over the lookup `key`, the buffered `event.event_id`,
and the enclosing call's `roomId`, `event` and `onTextOnly`; a `Timer` records
exactly those captured values together with the timer id. -/
structure Timer where
  id : Nat
  key : String
  eventId : String
  roomId : String
  event : MatrixMessageEvent
  onTextOnly : Nat
deriving DecidableEq

/-- The observable behaviour of the aggregator: timer management, resolution
of suspended `handleText` callers, and invocations of the caller-supplied
callbacks.  `resolved c b` means the suspended caller identified by `c` was
resumed with `shouldProcessAsText = b`; `onTextOnly n h r e bg` means the
text-only callback `h` stored by the entry identified by `n` was invoked with
room `r` and event `e`, in the background (fire-and-forget) iff `bg`. -/
inductive Effect where
  | timerStarted (id : Nat) (delayMs : Nat)
  | timerCancelled (id : Nat)
  | resolved (caller : Nat) (shouldProcessAsText : Bool)
  | onTextOnly (entryId : Nat) (handler : Nat) (roomId : String)
      (event : MatrixMessageEvent) (background : Bool)
  | onImage (handler : Nat) (roomId : String) (event : MatrixMessageEvent)
      (textContent : Option String)
  | onFile (handler : Nat) (roomId : String) (event : MatrixMessageEvent)
      (textContent : Option String)
deriving DecidableEq

/-- The `MessageAggregator` instance state: the `pending` map (a JavaScript
`Map`, modelled as an insertion-ordered association list), the set of
not-yet-fired, not-yet-cancelled timers, and the allocator for fresh
timer/promise ids. -/
structure AggState where
  aggregationWindowMs : Nat
  pending : List (String × PendingEntry)
  timers : List Timer
  nextId : Nat
deriving DecidableEq

/-- `Map.prototype.get`. -/
def lookupKey {β : Type} (k : String) : List (String × β) → Option β
  | [] => none
  | (k', v) :: rest => if k' = k then some v else lookupKey k rest

/-- `Map.prototype.set`: replaces the binding in place if the key is present,
appends otherwise. -/
def insertKey {β : Type} (k : String) (v : β) : List (String × β) → List (String × β)
  | [] => [(k, v)]
  | (k', v') :: rest => if k' = k then (k, v) :: rest else (k', v') :: insertKey k v rest

/-- `Map.prototype.delete`. -/
def eraseKey {β : Type} (k : String) : List (String × β) → List (String × β)
  | [] => []
  | (k', v') :: rest => if k' = k then rest else (k', v') :: eraseKey k rest

/-- `new MessageAggregator(aggregationWindowMs)` (lines 100-102). -/
def mkAggregator (aggregationWindowMs : Nat) : AggState :=
  { aggregationWindowMs := aggregationWindowMs, pending := [], timers := [], nextId := 0 }

/-- `getKey` (lines 107-109). -/
def getKey (roomId : String) (senderId : String) : String :=
  roomId ++ ":" ++ senderId

/-- `claimForMedia` (lines 116-142).  Returns the `ClaimResult`, the state
after the call, and the emitted effects.  The source mutates `entry.state` to
`COMBINED_WITH_MEDIA` and then deletes the entry; the transient insertion
followed by `eraseKey` mirrors that. -/
def claimForMedia (s : AggState) (key : String) :
    ClaimResult × AggState × List Effect :=
  match lookupKey key s.pending with
  | none => (⟨false, none, none⟩, s, [])
  | some entry =>
    if entry.state ≠ AggregationState.WAITING_FOR_MEDIA then
      (⟨false, none, none⟩, s, [])
    else
      let pending1 := insertKey key
        { entry with state := AggregationState.COMBINED_WITH_MEDIA } s.pending
      let timers1 := s.timers.filter (fun t => decide (t.id ≠ entry.timeoutId))
      let textContent := entry.event.content.body
      let event := entry.event
      let pending2 := eraseKey key pending1
      (⟨true, some event, some textContent⟩,
       { s with pending := pending2, timers := timers1 },
       [Effect.timerCancelled entry.timeoutId, Effect.resolved entry.resolve false])

/-- `claimForTimeout` (lines 149-180).  Checks existence, then the event-id
identity, then the state; on success deletes the entry without resolving and
without touching any timer (it is the timer firing). -/
def claimForTimeout (s : AggState) (key : String) (eventId : String) :
    ClaimResult × AggState × List Effect :=
  match lookupKey key s.pending with
  | none => (⟨false, none, none⟩, s, [])
  | some entry =>
    if entry.event.event_id ≠ eventId then
      (⟨false, none, none⟩, s, [])
    else if entry.state ≠ AggregationState.WAITING_FOR_MEDIA then
      (⟨false, none, none⟩, s, [])
    else
      let pending1 := insertKey key
        { entry with state := AggregationState.PROCESSED_AS_TEXT } s.pending
      let event := entry.event
      let pending2 := eraseKey key pending1
      (⟨true, some event, none⟩, { s with pending := pending2 }, [])

/-- `handleText` (lines 186-237), synchronous part: supersession of an
existing entry (clear its timer, mark it processed, delete it, resolve its
caller with `false`, fire-and-forget its stored `onTextOnly`), then
`setTimeout` and insertion of a fresh `WAITING_FOR_MEDIA` entry.  The new
entry's caller is suspended until a `resolved` effect carries its id. -/
def handleText (s : AggState) (roomId : String) (event : MatrixMessageEvent)
    (onTextOnly : Nat) : AggState × List Effect :=
  let key := getKey roomId event.sender
  let superseded :=
    match lookupKey key s.pending with
    | some existing =>
      ({ s with
          pending := eraseKey key (insertKey key
            { existing with state := AggregationState.PROCESSED_AS_TEXT } s.pending),
          timers := s.timers.filter (fun t => decide (t.id ≠ existing.timeoutId)) },
       [Effect.timerCancelled existing.timeoutId,
        Effect.resolved existing.resolve false,
        Effect.onTextOnly existing.resolve existing.onTextOnly
          existing.roomId existing.event true])
    | none => (s, ([] : List Effect))
  let s1 := superseded.1
  let timeoutId := s1.nextId
  let s2 : AggState :=
    { s1 with
        pending := insertKey key
          { state := AggregationState.WAITING_FOR_MEDIA, roomId := roomId,
            event := event, timeoutId := timeoutId, resolve := timeoutId,
            onTextOnly := onTextOnly } s1.pending,
        timers := s1.timers ++
          [{ id := timeoutId, key := key, eventId := event.event_id,
             roomId := roomId, event := event, onTextOnly := onTextOnly }],
        nextId := s1.nextId + 1 }
  (s2, superseded.2 ++ [Effect.timerStarted timeoutId s.aggregationWindowMs])

/-- The `setTimeout` callback of `handleText` (lines 212-216) firing: the
timer is consumed, `claimForTimeout` runs, the suspended caller is resumed
with the claim's success, and on success the resumed caller invokes its
`onTextOnly` (line 235). -/
def fireTimer (s : AggState) (t : Timer) : AggState × List Effect :=
  let s0 : AggState := { s with timers := s.timers.filter (fun u => decide (u.id ≠ t.id)) }
  let claimed := claimForTimeout s0 t.key t.eventId
  if claimed.1.success then
    (claimed.2.1, claimed.2.2 ++
      [Effect.resolved t.id true,
       Effect.onTextOnly t.id t.onTextOnly t.roomId t.event false])
  else
    (claimed.2.1, claimed.2.2 ++ [Effect.resolved t.id false])

/-- `handleImage` (lines 243-262).  The source guards on
`claim.success && claim.textContent`: JavaScript truthiness makes the guard
fail when `textContent` is absent or the empty string, in which case the
image is processed alone. -/
def handleImage (s : AggState) (roomId : String) (event : MatrixMessageEvent)
    (onImage : Nat) : AggState × List Effect :=
  let key := getKey roomId event.sender
  let claimed := claimForMedia s key
  match claimed.1.success, claimed.1.textContent with
  | true, some t =>
    if t ≠ "" then
      (claimed.2.1, claimed.2.2 ++ [Effect.onImage onImage roomId event (some t)])
    else
      (claimed.2.1, claimed.2.2 ++ [Effect.onImage onImage roomId event none])
  | _, _ => (claimed.2.1, claimed.2.2 ++ [Effect.onImage onImage roomId event none])

/-- `handleFile` (lines 268-287), identical to `handleImage` but for files. -/
def handleFile (s : AggState) (roomId : String) (event : MatrixMessageEvent)
    (onFile : Nat) : AggState × List Effect :=
  let key := getKey roomId event.sender
  let claimed := claimForMedia s key
  match claimed.1.success, claimed.1.textContent with
  | true, some t =>
    if t ≠ "" then
      (claimed.2.1, claimed.2.2 ++ [Effect.onFile onFile roomId event (some t)])
    else
      (claimed.2.1, claimed.2.2 ++ [Effect.onFile onFile roomId event none])
  | _, _ => (claimed.2.1, claimed.2.2 ++ [Effect.onFile onFile roomId event none])

/-- `getState` (lines 292-295). -/
def getState (s : AggState) (roomId : String) (senderId : String) :
    Option AggregationState :=
  (lookupKey (getKey roomId senderId) s.pending).map PendingEntry.state

/-- `getPendingCount` (lines 300-302). -/
def getPendingCount (s : AggState) : Nat :=
  s.pending.length

/-- `cleanup` (lines 307-314): clears every entry's timer, resolves every
suspended caller with `false`, and empties the map. -/
def cleanup (s : AggState) : AggState × List Effect :=
  let effs := s.pending.flatMap (fun kv =>
    [Effect.timerCancelled kv.2.timeoutId, Effect.resolved kv.2.resolve false])
  ({ s with
      pending := [],
      timers := s.timers.filter (fun t =>
        decide (∀ kv ∈ s.pending, kv.2.timeoutId ≠ t.id)) },
   effs)

/-- One scheduler turn of the single-threaded runtime: a public API call
running its synchronous part, an armed timer firing, or `cleanup`.  Firing a
timer id that is not active (already fired or cancelled) does nothing. -/
inductive AggAction where
  | text (roomId : String) (event : MatrixMessageEvent) (onTextOnly : Nat)
  | image (roomId : String) (event : MatrixMessageEvent) (onImage : Nat)
  | file (roomId : String) (event : MatrixMessageEvent) (onFile : Nat)
  | fire (timerId : Nat)
  | cleanup
deriving DecidableEq

/-- Execute one scheduler turn. -/
def step (s : AggState) (a : AggAction) : AggState × List Effect :=
  match a with
  | AggAction.text roomId event h => handleText s roomId event h
  | AggAction.image roomId event h => handleImage s roomId event h
  | AggAction.file roomId event h => handleFile s roomId event h
  | AggAction.fire tid =>
    match s.timers.find? (fun t => t.id == tid) with
    | some t => fireTimer s t
    | none => (s, [])
  | AggAction.cleanup => cleanup s

/-- Execute a sequence of scheduler turns, concatenating the effect logs. -/
def run (s : AggState) : List AggAction → AggState × List Effect
  | [] => (s, [])
  | a :: rest =>
    let stepped := step s a
    let rest' := run stepped.1 rest
    (rest'.1, stepped.2 ++ rest'.2)

/-- States reachable from a freshly constructed aggregator. -/
inductive Reachable : AggState → Prop
  | init (w : Nat) : Reachable (mkAggregator w)
  | next {s : AggState} (a : AggAction) : Reachable s → Reachable (step s a).1

/-! ### Effect classifiers -/

/-- Does this effect resume the suspended caller identified by `n`? -/
def isResolvedFor (n : Nat) : Effect → Bool
  | Effect.resolved m _ => m == n
  | _ => false

/-- Is this effect an invocation of the text-only callback stored by the
pending entry identified by `n`? -/
def isTextOnlyFor (n : Nat) : Effect → Bool
  | Effect.onTextOnly m _ _ _ _ => m == n
  | _ => false

/-- Is this effect any text-only callback invocation? -/
def isTextOnlyEffect : Effect → Bool
  | Effect.onTextOnly _ _ _ _ _ => true
  | _ => false

/-- The pending entry a `resolved` or `onTextOnly` effect belongs to. -/
def effectEntryId : Effect → Option Nat
  | Effect.resolved n _ => some n
  | Effect.onTextOnly n _ _ _ _ => some n
  | _ => none

/-! ### The state invariant maintained by every reachable state -/

/-- Invariant of the aggregator state: the `pending` map has no duplicate
keys, every stored entry is still `WAITING_FOR_MEDIA` (terminal states are
removed at once), ids are allocated below `nextId` and never reused, and every
armed timer matches the entry currently stored under its key. -/
structure AggInv (s : AggState) : Prop where
  keysNodup : (s.pending.map Prod.fst).Nodup
  waiting : ∀ kv ∈ s.pending, kv.2.state = AggregationState.WAITING_FOR_MEDIA
  resolveEq : ∀ kv ∈ s.pending, kv.2.resolve = kv.2.timeoutId
  idLt : ∀ kv ∈ s.pending, kv.2.timeoutId < s.nextId
  resolvesNodup : (s.pending.map (fun kv => kv.2.resolve)).Nodup
  timerLt : ∀ t ∈ s.timers, t.id < s.nextId
  timerIdsNodup : (s.timers.map Timer.id).Nodup
  timerEntry : ∀ t ∈ s.timers, ∃ e, lookupKey t.key s.pending = some e ∧
    e.timeoutId = t.id ∧ e.roomId = t.roomId ∧ e.event = t.event ∧
    e.onTextOnly = t.onTextOnly ∧ e.event.event_id = t.eventId

/-! ### Concrete fixtures used to instantiate the theorems -/

/-- A concrete text event used as test fixture. -/
def wTextEvent : MatrixMessageEvent :=
  { event_id := "$t1", sender := "@u:hs", room_id := "!r:hs",
    content := { msgtype := "m.text", body := "hello" } }

/-- A concrete text event with an empty body. -/
def wEmptyEvent : MatrixMessageEvent :=
  { event_id := "$t2", sender := "@u:hs", room_id := "!r:hs",
    content := { msgtype := "m.text", body := "" } }

/-- A concrete image event from the same sender in the same room. -/
def wImageEvent : MatrixMessageEvent :=
  { event_id := "$i1", sender := "@u:hs", room_id := "!r:hs",
    content := { msgtype := "m.image", body := "photo.jpg" } }

/-- The state after `handleText` buffered `wTextEvent` in room `"!r:hs"`. -/
def wState1 : AggState :=
  (step (mkAggregator 2000) (AggAction.text "!r:hs" wTextEvent 0)).1

/-- The entry `wState1` holds for the key `"!r:hs:@u:hs"`. -/
def wEntry1 : PendingEntry :=
  { state := AggregationState.WAITING_FOR_MEDIA, roomId := "!r:hs",
    event := wTextEvent, timeoutId := 0, resolve := 0, onTextOnly := 0 }

/-- The timer `wState1` armed for `wEntry1`. -/
def wTimer1 : Timer :=
  { id := 0, key := "!r:hs:@u:hs", eventId := "$t1", roomId := "!r:hs",
    event := wTextEvent, onTextOnly := 0 }

/-- A text event sent by sender `"c"` (used for the key-collision claim). -/
def wColl1 : MatrixMessageEvent :=
  { event_id := "$c1", sender := "c", room_id := "a:b",
    content := { msgtype := "m.text", body := "collide" } }

/-- An image event sent by sender `"b:c"` (used for the key-collision claim). -/
def wColl2 : MatrixMessageEvent :=
  { event_id := "$c2", sender := "b:c", room_id := "a",
    content := { msgtype := "m.image", body := "img.png" } }

/-- Does this scheduler turn create a pending entry for `key`?  Only
`handleText` ever inserts into the store, under `getKey roomId ev.sender`. -/
def createsKey (key : String) : AggAction → Bool
  | AggAction.text roomId ev _ => getKey roomId ev.sender == key
  | _ => false

/-- An entry frozen in a terminal state (never produced by the aggregator
itself, which removes terminal entries at once; used to exercise the
"found but no longer waiting" failure mode of the claim operations on an
arbitrary state). -/
def wStaleEntry : PendingEntry :=
  { state := AggregationState.PROCESSED_AS_TEXT, roomId := "!r:hs",
    event := wTextEvent, timeoutId := 0, resolve := 0, onTextOnly := 0 }

/-- A store holding `wStaleEntry` under the key `"!r:hs:@u:hs"`. -/
def wStaleState : AggState :=
  { aggregationWindowMs := 2000,
    pending := [("!r:hs:@u:hs", wStaleEntry)], timers := [], nextId := 1 }


/-! ### Association-list lemmas for the `pending` map -/

theorem lookupKey_insertKey_self {β : Type} (k : String) (v : β)
    (m : List (String × β)) : lookupKey k (insertKey k v m) = some v := by
  induction m with
  | nil => simp [insertKey, lookupKey]
  | cons hd tl ih =>
    obtain ⟨k', v'⟩ := hd
    by_cases h : k' = k
    · simp [insertKey, lookupKey, h]
    · simp [insertKey, lookupKey, h, ih]

theorem insertKey_of_lookup_none {β : Type} {k : String} (v : β)
    {m : List (String × β)} (h : lookupKey k m = none) :
    insertKey k v m = m ++ [(k, v)] := by
  induction m with
  | nil => simp [insertKey]
  | cons hd tl ih =>
    obtain ⟨k', v'⟩ := hd
    by_cases hk : k' = k
    · simp [lookupKey, hk] at h
    · simp only [lookupKey, hk, if_false] at h
      simp [insertKey, hk, ih h]

theorem eraseKey_insertKey {β : Type} (k : String) (v : β)
    (m : List (String × β)) : eraseKey k (insertKey k v m) = eraseKey k m := by
  induction m with
  | nil => simp [insertKey, eraseKey]
  | cons hd tl ih =>
    obtain ⟨k', v'⟩ := hd
    by_cases h : k' = k
    · simp [insertKey, eraseKey, h]
    · simp [insertKey, eraseKey, h, ih]

theorem eraseKey_sublist {β : Type} (k : String) (m : List (String × β)) :
    (eraseKey k m).Sublist m := by
  induction m with
  | nil => simp [eraseKey]
  | cons hd tl ih =>
    obtain ⟨k', v'⟩ := hd
    by_cases h : k' = k
    · simp [eraseKey, h]
    · simpa [eraseKey, h] using ih.cons₂ (k', v')

theorem mem_of_mem_eraseKey {β : Type} {k : String} {m : List (String × β)}
    {x : String × β} (h : x ∈ eraseKey k m) : x ∈ m :=
  (eraseKey_sublist k m).mem h

theorem lookupKey_eraseKey_ne {β : Type} {k k' : String} (m : List (String × β))
    (h : k' ≠ k) : lookupKey k' (eraseKey k m) = lookupKey k' m := by
  induction m with
  | nil => rfl
  | cons hd tl ih =>
    obtain ⟨k0, v0⟩ := hd
    by_cases h0 : k0 = k
    · subst h0
      simp [eraseKey, lookupKey, Ne.symm h]
    · by_cases h1 : k0 = k'
      · simp [eraseKey, lookupKey, h0, h1, h]
      · simp [eraseKey, lookupKey, h0, h1, ih]

theorem lookupKey_eq_none_iff {β : Type} {k : String} {m : List (String × β)} :
    lookupKey k m = none ↔ k ∉ m.map Prod.fst := by
  induction m with
  | nil => simp [lookupKey]
  | cons hd tl ih =>
    obtain ⟨k', v'⟩ := hd
    by_cases h : k' = k
    · simp [lookupKey, h]
    · simp [lookupKey, h, ih, Ne.symm h]

theorem lookupKey_eraseKey_self {β : Type} {k : String} {m : List (String × β)}
    (hnd : (m.map Prod.fst).Nodup) : lookupKey k (eraseKey k m) = none := by
  induction m with
  | nil => simp [eraseKey, lookupKey]
  | cons hd tl ih =>
    obtain ⟨k', v'⟩ := hd
    simp only [List.map_cons, List.nodup_cons] at hnd
    by_cases h : k' = k
    · subst h
      have he : eraseKey k' ((k', v') :: tl) = tl := by simp [eraseKey]
      rw [he]
      exact lookupKey_eq_none_iff.mpr hnd.1
    · simp [eraseKey, lookupKey, h, ih hnd.2]

theorem lookupKey_mem {β : Type} {k : String} {m : List (String × β)} {v : β}
    (h : lookupKey k m = some v) : (k, v) ∈ m := by
  induction m with
  | nil => simp [lookupKey] at h
  | cons hd tl ih =>
    obtain ⟨k', v'⟩ := hd
    by_cases hk : k' = k
    · subst hk
      simp [lookupKey] at h
      subst h
      exact List.mem_cons_self _ _
    · simp only [lookupKey, hk, if_false] at h
      exact List.mem_cons_of_mem _ (ih h)

theorem lookupKey_append {β : Type} (k : String) (m m' : List (String × β)) :
    lookupKey k (m ++ m') =
      match lookupKey k m with
      | some v => some v
      | none => lookupKey k m' := by
  induction m with
  | nil => simp [lookupKey]
  | cons hd tl ih =>
    obtain ⟨k', v'⟩ := hd
    by_cases h : k' = k
    · simp [lookupKey, h]
    · simp [lookupKey, h, ih]

theorem map_fst_eraseKey_sublist {β : Type} (k : String) (m : List (String × β)) :
    ((eraseKey k m).map Prod.fst).Sublist (m.map Prod.fst) :=
  (eraseKey_sublist k m).map Prod.fst

theorem nodup_map_fst_eraseKey {β : Type} {k : String} {m : List (String × β)}
    (h : (m.map Prod.fst).Nodup) : ((eraseKey k m).map Prod.fst).Nodup :=
  (map_fst_eraseKey_sublist k m).nodup h

/-! ### Branch characterizations of the operations -/

theorem claimForMedia_of_none {s : AggState} {key : String}
    (h : lookupKey key s.pending = none) :
    claimForMedia s key = (⟨false, none, none⟩, s, []) := by
  simp [claimForMedia, h]

theorem claimForMedia_of_state {s : AggState} {key : String} {e : PendingEntry}
    (h : lookupKey key s.pending = some e)
    (hs : e.state ≠ AggregationState.WAITING_FOR_MEDIA) :
    claimForMedia s key = (⟨false, none, none⟩, s, []) := by
  simp [claimForMedia, h, hs]

theorem claimForMedia_of_waiting {s : AggState} {key : String} {e : PendingEntry}
    (h : lookupKey key s.pending = some e)
    (hs : e.state = AggregationState.WAITING_FOR_MEDIA) :
    claimForMedia s key =
      (⟨true, some e.event, some e.event.content.body⟩,
       { s with pending := eraseKey key s.pending,
                timers := s.timers.filter (fun t => decide (t.id ≠ e.timeoutId)) },
       [Effect.timerCancelled e.timeoutId, Effect.resolved e.resolve false]) := by
  simp [claimForMedia, h, hs, eraseKey_insertKey]

theorem claimForTimeout_of_none {s : AggState} {key eid : String}
    (h : lookupKey key s.pending = none) :
    claimForTimeout s key eid = (⟨false, none, none⟩, s, []) := by
  simp [claimForTimeout, h]

theorem claimForTimeout_of_mismatch {s : AggState} {key eid : String}
    {e : PendingEntry} (h : lookupKey key s.pending = some e)
    (hid : e.event.event_id ≠ eid) :
    claimForTimeout s key eid = (⟨false, none, none⟩, s, []) := by
  simp [claimForTimeout, h, hid]

theorem claimForTimeout_of_state {s : AggState} {key eid : String}
    {e : PendingEntry} (h : lookupKey key s.pending = some e)
    (hid : e.event.event_id = eid)
    (hs : e.state ≠ AggregationState.WAITING_FOR_MEDIA) :
    claimForTimeout s key eid = (⟨false, none, none⟩, s, []) := by
  simp [claimForTimeout, h, hid, hs]

theorem claimForTimeout_of_waiting {s : AggState} {key eid : String}
    {e : PendingEntry} (h : lookupKey key s.pending = some e)
    (hid : e.event.event_id = eid)
    (hs : e.state = AggregationState.WAITING_FOR_MEDIA) :
    claimForTimeout s key eid =
      (⟨true, some e.event, none⟩,
       { s with pending := eraseKey key s.pending }, []) := by
  simp [claimForTimeout, h, hid, hs, eraseKey_insertKey]

theorem handleText_of_none {s : AggState} {roomId : String}
    {ev : MatrixMessageEvent} {h : Nat}
    (hl : lookupKey (getKey roomId ev.sender) s.pending = none) :
    handleText s roomId ev h =
      ({ s with
          pending := insertKey (getKey roomId ev.sender)
            { state := AggregationState.WAITING_FOR_MEDIA, roomId := roomId,
              event := ev, timeoutId := s.nextId, resolve := s.nextId,
              onTextOnly := h } s.pending,
          timers := s.timers ++
            [{ id := s.nextId, key := getKey roomId ev.sender,
               eventId := ev.event_id, roomId := roomId, event := ev,
               onTextOnly := h }],
          nextId := s.nextId + 1 },
       [Effect.timerStarted s.nextId s.aggregationWindowMs]) := by
  simp [handleText, hl]

theorem handleText_of_some {s : AggState} {roomId : String}
    {ev : MatrixMessageEvent} {h : Nat} {ex : PendingEntry}
    (hl : lookupKey (getKey roomId ev.sender) s.pending = some ex) :
    handleText s roomId ev h =
      ({ s with
          pending := insertKey (getKey roomId ev.sender)
            { state := AggregationState.WAITING_FOR_MEDIA, roomId := roomId,
              event := ev, timeoutId := s.nextId, resolve := s.nextId,
              onTextOnly := h } (eraseKey (getKey roomId ev.sender) s.pending),
          timers := s.timers.filter (fun t => decide (t.id ≠ ex.timeoutId)) ++
            [{ id := s.nextId, key := getKey roomId ev.sender,
               eventId := ev.event_id, roomId := roomId, event := ev,
               onTextOnly := h }],
          nextId := s.nextId + 1 },
       [Effect.timerCancelled ex.timeoutId,
        Effect.resolved ex.resolve false,
        Effect.onTextOnly ex.resolve ex.onTextOnly ex.roomId ex.event true,
        Effect.timerStarted s.nextId s.aggregationWindowMs]) := by
  simp [handleText, hl, eraseKey_insertKey]

theorem fireTimer_of_waiting {s : AggState} {t : Timer} {e : PendingEntry}
    (hl : lookupKey t.key s.pending = some e)
    (hs : e.state = AggregationState.WAITING_FOR_MEDIA)
    (hid : e.event.event_id = t.eventId) :
    fireTimer s t =
      ({ s with pending := eraseKey t.key s.pending,
                timers := s.timers.filter (fun u => decide (u.id ≠ t.id)) },
       [Effect.resolved t.id true,
        Effect.onTextOnly t.id t.onTextOnly t.roomId t.event false]) := by
  simp [fireTimer, claimForTimeout, hl, hid, hs, eraseKey_insertKey]

theorem handleImage_of_fail {s : AggState} {roomId : String}
    {ev : MatrixMessageEvent} {h : Nat}
    (hc : claimForMedia s (getKey roomId ev.sender) = (⟨false, none, none⟩, s, [])) :
    handleImage s roomId ev h = (s, [Effect.onImage h roomId ev none]) := by
  simp [handleImage, hc]

theorem handleImage_of_waiting {s : AggState} {roomId : String}
    {ev : MatrixMessageEvent} {h : Nat} {e : PendingEntry}
    (hl : lookupKey (getKey roomId ev.sender) s.pending = some e)
    (hs : e.state = AggregationState.WAITING_FOR_MEDIA)
    (hb : e.event.content.body ≠ "") :
    handleImage s roomId ev h =
      ({ s with pending := eraseKey (getKey roomId ev.sender) s.pending,
                timers := s.timers.filter (fun t => decide (t.id ≠ e.timeoutId)) },
       [Effect.timerCancelled e.timeoutId, Effect.resolved e.resolve false,
        Effect.onImage h roomId ev (some e.event.content.body)]) := by
  simp [handleImage, claimForMedia_of_waiting hl hs, hb]

theorem handleImage_of_empty {s : AggState} {roomId : String}
    {ev : MatrixMessageEvent} {h : Nat} {e : PendingEntry}
    (hl : lookupKey (getKey roomId ev.sender) s.pending = some e)
    (hs : e.state = AggregationState.WAITING_FOR_MEDIA)
    (hb : e.event.content.body = "") :
    handleImage s roomId ev h =
      ({ s with pending := eraseKey (getKey roomId ev.sender) s.pending,
                timers := s.timers.filter (fun t => decide (t.id ≠ e.timeoutId)) },
       [Effect.timerCancelled e.timeoutId, Effect.resolved e.resolve false,
        Effect.onImage h roomId ev none]) := by
  simp [handleImage, claimForMedia_of_waiting hl hs, hb]

theorem handleFile_of_fail {s : AggState} {roomId : String}
    {ev : MatrixMessageEvent} {h : Nat}
    (hc : claimForMedia s (getKey roomId ev.sender) = (⟨false, none, none⟩, s, [])) :
    handleFile s roomId ev h = (s, [Effect.onFile h roomId ev none]) := by
  simp [handleFile, hc]

theorem handleFile_of_waiting {s : AggState} {roomId : String}
    {ev : MatrixMessageEvent} {h : Nat} {e : PendingEntry}
    (hl : lookupKey (getKey roomId ev.sender) s.pending = some e)
    (hs : e.state = AggregationState.WAITING_FOR_MEDIA)
    (hb : e.event.content.body ≠ "") :
    handleFile s roomId ev h =
      ({ s with pending := eraseKey (getKey roomId ev.sender) s.pending,
                timers := s.timers.filter (fun t => decide (t.id ≠ e.timeoutId)) },
       [Effect.timerCancelled e.timeoutId, Effect.resolved e.resolve false,
        Effect.onFile h roomId ev (some e.event.content.body)]) := by
  simp [handleFile, claimForMedia_of_waiting hl hs, hb]

theorem handleFile_of_empty {s : AggState} {roomId : String}
    {ev : MatrixMessageEvent} {h : Nat} {e : PendingEntry}
    (hl : lookupKey (getKey roomId ev.sender) s.pending = some e)
    (hs : e.state = AggregationState.WAITING_FOR_MEDIA)
    (hb : e.event.content.body = "") :
    handleFile s roomId ev h =
      ({ s with pending := eraseKey (getKey roomId ev.sender) s.pending,
                timers := s.timers.filter (fun t => decide (t.id ≠ e.timeoutId)) },
       [Effect.timerCancelled e.timeoutId, Effect.resolved e.resolve false,
        Effect.onFile h roomId ev none]) := by
  simp [handleFile, claimForMedia_of_waiting hl hs, hb]

/-- A failed media claim has exactly the shape `(⟨false, none, none⟩, s, [])`:
there is one failure result, shared by the "no entry" and "entry not waiting"
cases. -/
theorem claimForMedia_fail_cases {s : AggState} {key : String}
    (h : ¬ ∃ e, lookupKey key s.pending = some e ∧
        e.state = AggregationState.WAITING_FOR_MEDIA) :
    claimForMedia s key = (⟨false, none, none⟩, s, []) := by
  cases hl : lookupKey key s.pending with
  | none => exact claimForMedia_of_none hl
  | some e =>
    refine claimForMedia_of_state hl (fun hs => h ⟨e, hl, hs⟩)

/-! ### Preservation of the invariant -/

/-- Removing an entry together with its timer preserves the invariant. -/
theorem aggInv_erase {s : AggState} {key : String} {e : PendingEntry}
    (hI : AggInv s) (hl : lookupKey key s.pending = some e) :
    AggInv { s with pending := eraseKey key s.pending,
                    timers := s.timers.filter (fun t => decide (t.id ≠ e.timeoutId)) } := by
  refine ⟨nodup_map_fst_eraseKey hI.keysNodup, ?_, ?_, ?_, ?_, ?_, ?_, ?_⟩
  · exact fun kv hm => hI.waiting kv (mem_of_mem_eraseKey hm)
  · exact fun kv hm => hI.resolveEq kv (mem_of_mem_eraseKey hm)
  · exact fun kv hm => hI.idLt kv (mem_of_mem_eraseKey hm)
  · exact ((eraseKey_sublist key s.pending).map _).nodup hI.resolvesNodup
  · exact fun t ht => hI.timerLt t (List.mem_of_mem_filter ht)
  · exact ((List.filter_sublist _).map _).nodup hI.timerIdsNodup
  · intro t ht
    have htm : t ∈ s.timers := List.mem_of_mem_filter ht
    have htne : t.id ≠ e.timeoutId := by
      have := (List.mem_filter.mp ht).2
      simpa using this
    obtain ⟨e', hl', hid', hfields⟩ := hI.timerEntry t htm
    have hkey : t.key ≠ key := by
      intro hk
      rw [hk, hl] at hl'
      have he : e' = e := by injection hl' with h2; exact h2.symm
      exact htne (he ▸ hid').symm
    refine ⟨e', ?_, hid', hfields⟩
    simpa [lookupKey_eraseKey_ne _ hkey] using hl'

/-- Inserting a fresh entry (and arming its timer) with the next free id
preserves the invariant, provided the key is currently unmapped. -/
theorem aggInv_insert_fresh {s1 : AggState} {key roomId : String}
    {ev : MatrixMessageEvent} {h : Nat}
    (hI : AggInv s1) (hl : lookupKey key s1.pending = none) :
    AggInv { s1 with
      pending := insertKey key
        { state := AggregationState.WAITING_FOR_MEDIA, roomId := roomId,
          event := ev, timeoutId := s1.nextId, resolve := s1.nextId,
          onTextOnly := h } s1.pending,
      timers := s1.timers ++
        [{ id := s1.nextId, key := key, eventId := ev.event_id,
           roomId := roomId, event := ev, onTextOnly := h }],
      nextId := s1.nextId + 1 } := by
  rw [insertKey_of_lookup_none _ hl]
  have hkm : key ∉ s1.pending.map Prod.fst := lookupKey_eq_none_iff.mp hl
  refine ⟨?_, ?_, ?_, ?_, ?_, ?_, ?_, ?_⟩
  · simpa using hI.keysNodup.concat hkm
  · intro kv hm
    rcases List.mem_append.mp hm with hm | hm
    · exact hI.waiting kv hm
    · simp only [List.mem_singleton] at hm
      subst hm; rfl
  · intro kv hm
    rcases List.mem_append.mp hm with hm | hm
    · exact hI.resolveEq kv hm
    · simp only [List.mem_singleton] at hm
      subst hm; rfl
  · intro kv hm
    rcases List.mem_append.mp hm with hm | hm
    · exact Nat.lt_trans (hI.idLt kv hm) (Nat.lt_succ_self _)
    · simp only [List.mem_singleton] at hm
      subst hm; exact Nat.lt_succ_self _
  · have hres : s1.nextId ∉ s1.pending.map (fun kv => kv.2.resolve) := by
      intro hm
      obtain ⟨kv, hkv, hv⟩ := List.mem_map.mp hm
      have hlt := hI.idLt kv hkv
      rw [hI.resolveEq kv hkv] at hv
      omega
    simpa using hI.resolvesNodup.concat hres
  · intro t ht
    rcases List.mem_append.mp ht with ht | ht
    · exact Nat.lt_trans (hI.timerLt t ht) (Nat.lt_succ_self _)
    · simp only [List.mem_singleton] at ht
      subst ht; exact Nat.lt_succ_self _
  · have hid : s1.nextId ∉ s1.timers.map Timer.id := by
      intro hm
      obtain ⟨t, htm, hv⟩ := List.mem_map.mp hm
      have := hI.timerLt t htm
      omega
    simpa using hI.timerIdsNodup.concat hid
  · intro t ht
    rcases List.mem_append.mp ht with ht | ht
    · obtain ⟨e', hl', rest⟩ := hI.timerEntry t ht
      refine ⟨e', ?_, rest⟩
      rw [lookupKey_append]
      simp [hl']
    · simp only [List.mem_singleton] at ht
      subst ht
      refine ⟨{ state := AggregationState.WAITING_FOR_MEDIA, roomId := roomId,
                event := ev, timeoutId := s1.nextId, resolve := s1.nextId,
                onTextOnly := h }, ?_, rfl, rfl, rfl, rfl, rfl⟩
      rw [lookupKey_append]
      simp [hl, lookupKey]

theorem aggInv_handleText {s : AggState} (roomId : String)
    (ev : MatrixMessageEvent) (h : Nat) (hI : AggInv s) :
    AggInv (handleText s roomId ev h).1 := by
  cases hl : lookupKey (getKey roomId ev.sender) s.pending with
  | none =>
    rw [handleText_of_none hl]
    exact aggInv_insert_fresh hI hl
  | some ex =>
    rw [handleText_of_some hl]
    have h1 := aggInv_erase hI hl
    have hl1 : lookupKey (getKey roomId ev.sender)
        (eraseKey (getKey roomId ev.sender) s.pending) = none :=
      lookupKey_eraseKey_self hI.keysNodup
    exact aggInv_insert_fresh h1 hl1

theorem aggInv_claimForMedia {s : AggState} (key : String) (hI : AggInv s) :
    AggInv (claimForMedia s key).2.1 := by
  cases hl : lookupKey key s.pending with
  | none => rw [claimForMedia_of_none hl]; exact hI
  | some e =>
    by_cases hs : e.state = AggregationState.WAITING_FOR_MEDIA
    · rw [claimForMedia_of_waiting hl hs]
      exact aggInv_erase hI hl
    · rw [claimForMedia_of_state hl hs]; exact hI

theorem handleImage_fst (s : AggState) (roomId : String)
    (ev : MatrixMessageEvent) (h : Nat) :
    (handleImage s roomId ev h).1 = (claimForMedia s (getKey roomId ev.sender)).2.1 := by
  simp only [handleImage]
  rcases claimForMedia s (getKey roomId ev.sender) with ⟨r, s', effs⟩
  rcases r with ⟨succ, oe, otc⟩
  cases succ <;> cases otc <;> simp <;> split <;> rfl

theorem handleFile_fst (s : AggState) (roomId : String)
    (ev : MatrixMessageEvent) (h : Nat) :
    (handleFile s roomId ev h).1 = (claimForMedia s (getKey roomId ev.sender)).2.1 := by
  simp only [handleFile]
  rcases claimForMedia s (getKey roomId ev.sender) with ⟨r, s', effs⟩
  rcases r with ⟨succ, oe, otc⟩
  cases succ <;> cases otc <;> simp <;> split <;> rfl

theorem aggInv_fireTimer {s : AggState} {t : Timer} (hI : AggInv s)
    (ht : t ∈ s.timers) : AggInv (fireTimer s t).1 := by
  obtain ⟨e, hl, hid, hroom, hev, hh, heid⟩ := hI.timerEntry t ht
  have hs : e.state = AggregationState.WAITING_FOR_MEDIA :=
    hI.waiting _ (lookupKey_mem hl)
  rw [fireTimer_of_waiting hl hs heid]
  rw [← hid]
  exact aggInv_erase hI hl

theorem cleanup_timers_nil {s : AggState} (hI : AggInv s) :
    (cleanup s).1.timers = [] := by
  simp only [cleanup]
  rw [List.filter_eq_nil_iff]
  intro t ht
  obtain ⟨e, hl, hid, _⟩ := hI.timerEntry t ht
  have hm : (t.key, e) ∈ s.pending := lookupKey_mem hl
  simp only [decide_eq_true_eq, not_forall]
  exact ⟨(t.key, e), hm, by simpa using hid⟩

theorem aggInv_cleanup {s : AggState} (hI : AggInv s) : AggInv (cleanup s).1 := by
  have ht := cleanup_timers_nil hI
  refine ⟨?_, ?_, ?_, ?_, ?_, ?_, ?_, ?_⟩
  · simp [cleanup]
  · simp [cleanup]
  · simp [cleanup]
  · simp [cleanup]
  · simp [cleanup]
  · rw [ht]; simp
  · rw [ht]; simp
  · rw [ht]; simp

theorem aggInv_step (s : AggState) (a : AggAction) (hI : AggInv s) :
    AggInv (step s a).1 := by
  cases a with
  | text roomId ev h => exact aggInv_handleText roomId ev h hI
  | image roomId ev h =>
    have := handleImage_fst s roomId ev h
    simpa [step, this] using aggInv_claimForMedia (getKey roomId ev.sender) hI
  | file roomId ev h =>
    have := handleFile_fst s roomId ev h
    simpa [step, this] using aggInv_claimForMedia (getKey roomId ev.sender) hI
  | fire tid =>
    simp only [step]
    cases hf : s.timers.find? (fun t => t.id == tid) with
    | none => exact hI
    | some t => exact aggInv_fireTimer hI (List.mem_of_find?_eq_some hf)
  | cleanup => exact aggInv_cleanup hI

theorem aggInv_mkAggregator (w : Nat) : AggInv (mkAggregator w) := by
  constructor <;> simp [mkAggregator]

theorem reachable_aggInv {s : AggState} (h : Reachable s) : AggInv s := by
  induction h with
  | init w => exact aggInv_mkAggregator w
  | next a _ ih => exact aggInv_step _ a ih

/-! ### Per-entry identity of resolution and callback effects -/

theorem isResolvedFor_entryId {n : Nat} {eff : Effect}
    (h : isResolvedFor n eff = true) : effectEntryId eff = some n := by
  cases eff <;> simp [isResolvedFor] at h <;> simp [effectEntryId, h]

theorem isTextOnlyFor_entryId {n : Nat} {eff : Effect}
    (h : isTextOnlyFor n eff = true) : effectEntryId eff = some n := by
  cases eff <;> simp [isTextOnlyFor] at h <;> simp [effectEntryId, h]

theorem mem_insertKey_of_lookup_none {β : Type} {k : String} {v : β}
    {l : List (String × β)} (hl : lookupKey k l = none) {x : String × β}
    (hm : x ∈ insertKey k v l) : x = (k, v) ∨ x ∈ l := by
  rw [insertKey_of_lookup_none _ hl] at hm
  rcases List.mem_append.mp hm with h | h
  · exact Or.inr h
  · left; simpa using h

theorem not_mem_eraseKey_self {β : Type} {l : List (String × β)}
    (hnd : (l.map Prod.fst).Nodup) (key : String) (v : β) :
    (key, v) ∉ eraseKey key l := by
  intro hm
  have h1 : key ∈ (eraseKey key l).map Prod.fst :=
    List.mem_map.mpr ⟨(key, v), hm, rfl⟩
  exact absurd h1 (lookupKey_eq_none_iff.mp (lookupKey_eraseKey_self hnd))

/-- After erasing an entry, no remaining entry carries its caller id. -/
theorem resolve_notin_erase {s : AggState} (hI : AggInv s) {key : String}
    {e : PendingEntry} (hl : lookupKey key s.pending = some e) :
    ∀ kv ∈ eraseKey key s.pending, kv.2.resolve ≠ e.resolve := by
  intro kv hkv hres
  have hkm : kv ∈ s.pending := mem_of_mem_eraseKey hkv
  have hke : (key, e) ∈ s.pending := lookupKey_mem hl
  have heq : kv = (key, e) :=
    List.inj_on_of_nodup_map hI.resolvesNodup hkm hke hres
  rw [heq] at hkv
  exact not_mem_eraseKey_self hI.keysNodup key e hkv

theorem claimForMedia_nextId (s : AggState) (key : String) :
    (claimForMedia s key).2.1.nextId = s.nextId := by
  cases hl : lookupKey key s.pending with
  | none => rw [claimForMedia_of_none hl]
  | some e =>
    by_cases hs : e.state = AggregationState.WAITING_FOR_MEDIA
    · rw [claimForMedia_of_waiting hl hs]
    · rw [claimForMedia_of_state hl hs]

theorem claimForTimeout_nextId (s : AggState) (key eid : String) :
    (claimForTimeout s key eid).2.1.nextId = s.nextId := by
  unfold claimForTimeout
  split
  · rfl
  · split
    · rfl
    · split
      · rfl
      · rfl

theorem fireTimer_nextId (s : AggState) (t : Timer) :
    (fireTimer s t).1.nextId = s.nextId := by
  simp only [fireTimer]
  split
  · exact claimForTimeout_nextId _ _ _
  · exact claimForTimeout_nextId _ _ _

/-- `nextId` never decreases across a scheduler turn. -/
theorem step_nextId_le (s : AggState) (a : AggAction) :
    s.nextId ≤ (step s a).1.nextId := by
  cases a with
  | text roomId ev h =>
    cases hl : lookupKey (getKey roomId ev.sender) s.pending with
    | none => rw [step, handleText_of_none hl]; exact Nat.le_succ _
    | some ex => rw [step, handleText_of_some hl]; exact Nat.le_succ _
  | image roomId ev h =>
    rw [step, handleImage_fst, claimForMedia_nextId]
  | file roomId ev h =>
    rw [step, handleFile_fst, claimForMedia_nextId]
  | fire tid =>
    simp only [step]
    cases hf : s.timers.find? (fun t => t.id == tid) with
    | none => exact Nat.le_refl _
    | some t => rw [fireTimer_nextId]
  | cleanup => exact Nat.le_refl _

/-- Any `resolved` or `onTextOnly` effect emitted by a scheduler turn belongs
to an entry that was pending before the turn. -/
theorem step_emit {s : AggState} {a : AggAction} {n : Nat} (hI : AggInv s)
    {eff : Effect} (hm : eff ∈ (step s a).2)
    (hid : effectEntryId eff = some n) :
    ∃ kv ∈ s.pending, kv.2.resolve = n := by
  cases a with
  | text roomId ev h =>
    simp only [step] at hm
    cases hl : lookupKey (getKey roomId ev.sender) s.pending with
    | none =>
      rw [handleText_of_none hl] at hm
      simp only [List.mem_singleton] at hm
      subst hm
      simp [effectEntryId] at hid
    | some ex =>
      rw [handleText_of_some hl] at hm
      simp only [List.mem_cons, List.mem_singleton, List.not_mem_nil, or_false] at hm
      rcases hm with rfl | rfl | rfl | rfl
      · simp [effectEntryId] at hid
      · simp only [effectEntryId, Option.some.injEq] at hid
        exact ⟨(getKey roomId ev.sender, ex), lookupKey_mem hl, hid⟩
      · simp only [effectEntryId, Option.some.injEq] at hid
        exact ⟨(getKey roomId ev.sender, ex), lookupKey_mem hl, hid⟩
      · simp [effectEntryId] at hid
  | image roomId ev h =>
    simp only [step] at hm
    cases hl : lookupKey (getKey roomId ev.sender) s.pending with
    | none =>
      rw [handleImage_of_fail (claimForMedia_of_none hl)] at hm
      simp only [List.mem_singleton] at hm
      subst hm
      simp [effectEntryId] at hid
    | some e =>
      by_cases hs : e.state = AggregationState.WAITING_FOR_MEDIA
      · have core : eff = Effect.timerCancelled e.timeoutId ∨
            eff = Effect.resolved e.resolve false ∨
            (∃ tc, eff = Effect.onImage h roomId ev tc) := by
          by_cases hb : e.event.content.body = ""
          · rw [handleImage_of_empty hl hs hb] at hm
            simp only [List.mem_cons, List.mem_singleton, List.not_mem_nil,
              or_false] at hm
            rcases hm with rfl | rfl | rfl
            · exact Or.inl rfl
            · exact Or.inr (Or.inl rfl)
            · exact Or.inr (Or.inr ⟨none, rfl⟩)
          · rw [handleImage_of_waiting hl hs hb] at hm
            simp only [List.mem_cons, List.mem_singleton, List.not_mem_nil,
              or_false] at hm
            rcases hm with rfl | rfl | rfl
            · exact Or.inl rfl
            · exact Or.inr (Or.inl rfl)
            · exact Or.inr (Or.inr ⟨some e.event.content.body, rfl⟩)
        rcases core with rfl | rfl | ⟨tc, rfl⟩
        · simp [effectEntryId] at hid
        · simp only [effectEntryId, Option.some.injEq] at hid
          exact ⟨(getKey roomId ev.sender, e), lookupKey_mem hl, hid⟩
        · simp [effectEntryId] at hid
      · rw [handleImage_of_fail (claimForMedia_of_state hl hs)] at hm
        simp only [List.mem_singleton] at hm
        subst hm
        simp [effectEntryId] at hid
  | file roomId ev h =>
    simp only [step] at hm
    cases hl : lookupKey (getKey roomId ev.sender) s.pending with
    | none =>
      rw [handleFile_of_fail (claimForMedia_of_none hl)] at hm
      simp only [List.mem_singleton] at hm
      subst hm
      simp [effectEntryId] at hid
    | some e =>
      by_cases hs : e.state = AggregationState.WAITING_FOR_MEDIA
      · have core : eff = Effect.timerCancelled e.timeoutId ∨
            eff = Effect.resolved e.resolve false ∨
            (∃ tc, eff = Effect.onFile h roomId ev tc) := by
          by_cases hb : e.event.content.body = ""
          · rw [handleFile_of_empty hl hs hb] at hm
            simp only [List.mem_cons, List.mem_singleton, List.not_mem_nil,
              or_false] at hm
            rcases hm with rfl | rfl | rfl
            · exact Or.inl rfl
            · exact Or.inr (Or.inl rfl)
            · exact Or.inr (Or.inr ⟨none, rfl⟩)
          · rw [handleFile_of_waiting hl hs hb] at hm
            simp only [List.mem_cons, List.mem_singleton, List.not_mem_nil,
              or_false] at hm
            rcases hm with rfl | rfl | rfl
            · exact Or.inl rfl
            · exact Or.inr (Or.inl rfl)
            · exact Or.inr (Or.inr ⟨some e.event.content.body, rfl⟩)
        rcases core with rfl | rfl | ⟨tc, rfl⟩
        · simp [effectEntryId] at hid
        · simp only [effectEntryId, Option.some.injEq] at hid
          exact ⟨(getKey roomId ev.sender, e), lookupKey_mem hl, hid⟩
        · simp [effectEntryId] at hid
      · rw [handleFile_of_fail (claimForMedia_of_state hl hs)] at hm
        simp only [List.mem_singleton] at hm
        subst hm
        simp [effectEntryId] at hid
  | fire tid =>
    simp only [step] at hm
    cases hf : s.timers.find? (fun t => t.id == tid) with
    | none =>
      rw [hf] at hm
      have hm2 : eff ∈ ([] : List Effect) := hm
      simp at hm2
    | some t =>
      rw [hf] at hm
      have hm2 : eff ∈ (fireTimer s t).2 := hm
      have htm := List.mem_of_find?_eq_some hf
      obtain ⟨e, hl, hid2, hroom, hev, hh, heid⟩ := hI.timerEntry t htm
      have hw := hI.waiting _ (lookupKey_mem hl)
      rw [fireTimer_of_waiting hl hw heid] at hm2
      simp only [List.mem_cons, List.mem_singleton, List.not_mem_nil,
        or_false] at hm2
      have hres : e.resolve = t.id :=
        (hI.resolveEq _ (lookupKey_mem hl)).trans hid2
      rcases hm2 with rfl | rfl
      · simp only [effectEntryId, Option.some.injEq] at hid
        exact ⟨(t.key, e), lookupKey_mem hl, hres.trans hid⟩
      · simp only [effectEntryId, Option.some.injEq] at hid
        exact ⟨(t.key, e), lookupKey_mem hl, hres.trans hid⟩
  | cleanup =>
    simp only [step, cleanup] at hm
    rw [List.mem_flatMap] at hm
    obtain ⟨kv, hkv, hmem⟩ := hm
    simp only [List.mem_cons, List.mem_singleton, List.not_mem_nil,
      or_false] at hmem
    rcases hmem with rfl | rfl
    · simp [effectEntryId] at hid
    · simp only [effectEntryId, Option.some.injEq] at hid
      exact ⟨kv, hkv, hid⟩

theorem claimForMedia_pending (s : AggState) (key : String) :
    (claimForMedia s key).2.1.pending = s.pending ∨
    (claimForMedia s key).2.1.pending = eraseKey key s.pending := by
  cases hl : lookupKey key s.pending with
  | none => rw [claimForMedia_of_none hl]; exact Or.inl rfl
  | some e =>
    by_cases hs : e.state = AggregationState.WAITING_FOR_MEDIA
    · rw [claimForMedia_of_waiting hl hs]; exact Or.inr rfl
    · rw [claimForMedia_of_state hl hs]; exact Or.inl rfl

theorem claimForTimeout_pending (s : AggState) (key eid : String) :
    (claimForTimeout s key eid).2.1.pending = s.pending ∨
    (claimForTimeout s key eid).2.1.pending = eraseKey key s.pending := by
  cases hl : lookupKey key s.pending with
  | none => rw [claimForTimeout_of_none hl]; exact Or.inl rfl
  | some e =>
    by_cases hid : e.event.event_id = eid
    · by_cases hs : e.state = AggregationState.WAITING_FOR_MEDIA
      · rw [claimForTimeout_of_waiting hl hid hs]; exact Or.inr rfl
      · rw [claimForTimeout_of_state hl hid hs]; exact Or.inl rfl
    · rw [claimForTimeout_of_mismatch hl hid]; exact Or.inl rfl

theorem fireTimer_pending (s : AggState) (t : Timer) :
    (fireTimer s t).1.pending = s.pending ∨
    (fireTimer s t).1.pending = eraseKey t.key s.pending := by
  simp only [fireTimer]
  split
  · exact claimForTimeout_pending _ _ _
  · exact claimForTimeout_pending _ _ _

/-- After a turn that emits a `resolved` or `onTextOnly` effect for entry `n`,
no pending entry carries the caller id `n` any more. -/
theorem step_removed {s : AggState} {a : AggAction} {n : Nat} (hI : AggInv s)
    {eff : Effect} (hm : eff ∈ (step s a).2)
    (hid : effectEntryId eff = some n) :
    ∀ kv ∈ (step s a).1.pending, kv.2.resolve ≠ n := by
  cases a with
  | text roomId ev h =>
    simp only [step] at hm ⊢
    cases hl : lookupKey (getKey roomId ev.sender) s.pending with
    | none =>
      rw [handleText_of_none hl] at hm
      simp only [List.mem_singleton] at hm
      subst hm
      simp [effectEntryId] at hid
    | some ex =>
      have hres : n = ex.resolve := by
        rw [handleText_of_some hl] at hm
        simp only [List.mem_cons, List.mem_singleton, List.not_mem_nil,
          or_false] at hm
        rcases hm with rfl | rfl | rfl | rfl
        · simp [effectEntryId] at hid
        · simp only [effectEntryId, Option.some.injEq] at hid
          exact hid.symm
        · simp only [effectEntryId, Option.some.injEq] at hid
          exact hid.symm
        · simp [effectEntryId] at hid
      subst hres
      have hlt : ex.resolve < s.nextId := by
        have h1 : ex.timeoutId < s.nextId := hI.idLt _ (lookupKey_mem hl)
        have h2 : ex.resolve = ex.timeoutId := hI.resolveEq _ (lookupKey_mem hl)
        omega
      rw [handleText_of_some hl]
      intro kv hkv
      rcases mem_insertKey_of_lookup_none
          (lookupKey_eraseKey_self hI.keysNodup) hkv with rfl | hkv
      · show s.nextId ≠ ex.resolve
        omega
      · exact resolve_notin_erase hI hl kv hkv
  | image roomId ev h =>
    simp only [step] at hm ⊢
    cases hl : lookupKey (getKey roomId ev.sender) s.pending with
    | none =>
      rw [handleImage_of_fail (claimForMedia_of_none hl)] at hm
      simp only [List.mem_singleton] at hm
      subst hm
      simp [effectEntryId] at hid
    | some e =>
      by_cases hs : e.state = AggregationState.WAITING_FOR_MEDIA
      · have hres : n = e.resolve := by
          by_cases hb : e.event.content.body = ""
          · rw [handleImage_of_empty hl hs hb] at hm
            simp only [List.mem_cons, List.mem_singleton, List.not_mem_nil,
              or_false] at hm
            rcases hm with rfl | rfl | rfl
            · simp [effectEntryId] at hid
            · simp only [effectEntryId, Option.some.injEq] at hid
              exact hid.symm
            · simp [effectEntryId] at hid
          · rw [handleImage_of_waiting hl hs hb] at hm
            simp only [List.mem_cons, List.mem_singleton, List.not_mem_nil,
              or_false] at hm
            rcases hm with rfl | rfl | rfl
            · simp [effectEntryId] at hid
            · simp only [effectEntryId, Option.some.injEq] at hid
              exact hid.symm
            · simp [effectEntryId] at hid
        subst hres
        have hpost : (handleImage s roomId ev h).1.pending =
            eraseKey (getKey roomId ev.sender) s.pending := by
          rw [handleImage_fst, claimForMedia_of_waiting hl hs]
        rw [hpost]
        exact resolve_notin_erase hI hl
      · rw [handleImage_of_fail (claimForMedia_of_state hl hs)] at hm
        simp only [List.mem_singleton] at hm
        subst hm
        simp [effectEntryId] at hid
  | file roomId ev h =>
    simp only [step] at hm ⊢
    cases hl : lookupKey (getKey roomId ev.sender) s.pending with
    | none =>
      rw [handleFile_of_fail (claimForMedia_of_none hl)] at hm
      simp only [List.mem_singleton] at hm
      subst hm
      simp [effectEntryId] at hid
    | some e =>
      by_cases hs : e.state = AggregationState.WAITING_FOR_MEDIA
      · have hres : n = e.resolve := by
          by_cases hb : e.event.content.body = ""
          · rw [handleFile_of_empty hl hs hb] at hm
            simp only [List.mem_cons, List.mem_singleton, List.not_mem_nil,
              or_false] at hm
            rcases hm with rfl | rfl | rfl
            · simp [effectEntryId] at hid
            · simp only [effectEntryId, Option.some.injEq] at hid
              exact hid.symm
            · simp [effectEntryId] at hid
          · rw [handleFile_of_waiting hl hs hb] at hm
            simp only [List.mem_cons, List.mem_singleton, List.not_mem_nil,
              or_false] at hm
            rcases hm with rfl | rfl | rfl
            · simp [effectEntryId] at hid
            · simp only [effectEntryId, Option.some.injEq] at hid
              exact hid.symm
            · simp [effectEntryId] at hid
        subst hres
        have hpost : (handleFile s roomId ev h).1.pending =
            eraseKey (getKey roomId ev.sender) s.pending := by
          rw [handleFile_fst, claimForMedia_of_waiting hl hs]
        rw [hpost]
        exact resolve_notin_erase hI hl
      · rw [handleFile_of_fail (claimForMedia_of_state hl hs)] at hm
        simp only [List.mem_singleton] at hm
        subst hm
        simp [effectEntryId] at hid
  | fire tid =>
    simp only [step] at hm ⊢
    cases hf : s.timers.find? (fun t => t.id == tid) with
    | none =>
      rw [hf] at hm
      have hm2 : eff ∈ ([] : List Effect) := hm
      simp at hm2
    | some t =>
      rw [hf] at hm
      have hm2 : eff ∈ (fireTimer s t).2 := hm
      have htm := List.mem_of_find?_eq_some hf
      obtain ⟨e, hl, hid2, hroom, hev, hh, heid⟩ := hI.timerEntry t htm
      have hw := hI.waiting _ (lookupKey_mem hl)
      rw [fireTimer_of_waiting hl hw heid] at hm2
      have hres : e.resolve = t.id :=
        (hI.resolveEq _ (lookupKey_mem hl)).trans hid2
      have hn : n = e.resolve := by
        simp only [List.mem_cons, List.mem_singleton, List.not_mem_nil,
          or_false] at hm2
        rcases hm2 with rfl | rfl
        · simp only [effectEntryId, Option.some.injEq] at hid
          exact hid.symm.trans hres.symm
        · simp only [effectEntryId, Option.some.injEq] at hid
          exact hid.symm.trans hres.symm
      subst hn
      show ∀ kv ∈ (fireTimer s t).1.pending, kv.2.resolve ≠ e.resolve
      rw [fireTimer_of_waiting hl hw heid]
      exact resolve_notin_erase hI hl
  | cleanup =>
    intro kv hkv
    have hkv2 : kv ∈ ([] : List (String × PendingEntry)) := hkv
    simp at hkv2

/-- Caller ids strictly below `nextId` that are not pending stay not pending:
fresh entries always take the next free id. -/
theorem step_fresh {s : AggState} {a : AggAction} {n : Nat} (hI : AggInv s)
    (hlt : n < s.nextId) (habs : ∀ kv ∈ s.pending, kv.2.resolve ≠ n) :
    ∀ kv ∈ (step s a).1.pending, kv.2.resolve ≠ n := by
  cases a with
  | text roomId ev h =>
    simp only [step]
    cases hl : lookupKey (getKey roomId ev.sender) s.pending with
    | none =>
      rw [handleText_of_none hl]
      intro kv hkv
      rcases mem_insertKey_of_lookup_none hl hkv with rfl | hkv
      · show s.nextId ≠ n
        omega
      · exact habs kv hkv
    | some ex =>
      rw [handleText_of_some hl]
      intro kv hkv
      rcases mem_insertKey_of_lookup_none
          (lookupKey_eraseKey_self hI.keysNodup) hkv with rfl | hkv
      · show s.nextId ≠ n
        omega
      · exact habs kv (mem_of_mem_eraseKey hkv)
  | image roomId ev h =>
    simp only [step]
    have hp := handleImage_fst s roomId ev h
    intro kv hkv
    rw [hp] at hkv
    rcases claimForMedia_pending s (getKey roomId ev.sender) with hq | hq
    · rw [hq] at hkv; exact habs kv hkv
    · rw [hq] at hkv; exact habs kv (mem_of_mem_eraseKey hkv)
  | file roomId ev h =>
    simp only [step]
    have hp := handleFile_fst s roomId ev h
    intro kv hkv
    rw [hp] at hkv
    rcases claimForMedia_pending s (getKey roomId ev.sender) with hq | hq
    · rw [hq] at hkv; exact habs kv hkv
    · rw [hq] at hkv; exact habs kv (mem_of_mem_eraseKey hkv)
  | fire tid =>
    simp only [step]
    cases hf : s.timers.find? (fun t => t.id == tid) with
    | none => exact habs
    | some t =>
      intro kv hkv
      have hkv2 : kv ∈ (fireTimer s t).1.pending := hkv
      rcases fireTimer_pending s t with hq | hq
      · rw [hq] at hkv2; exact habs kv hkv2
      · rw [hq] at hkv2; exact habs kv (mem_of_mem_eraseKey hkv2)
  | cleanup =>
    intro kv hkv
    have hkv2 : kv ∈ ([] : List (String × PendingEntry)) := hkv
    simp at hkv2

theorem countP_resolved_flatMap (l : List (String × PendingEntry)) (n : Nat) :
    (l.flatMap (fun kv => [Effect.timerCancelled kv.2.timeoutId,
      Effect.resolved kv.2.resolve false])).countP (isResolvedFor n) =
    (l.map (fun kv => kv.2.resolve)).count n := by
  induction l with
  | nil => simp
  | cons kv l ih =>
    simp only [List.flatMap_cons, List.countP_append, ih, List.map_cons,
      List.count_cons]
    by_cases hc : kv.2.resolve = n
    · simp [List.countP_cons, isResolvedFor, hc]
      omega
    · simp [List.countP_cons, isResolvedFor, hc]

/-- A single scheduler turn resumes any given suspended caller at most once. -/
theorem step_countP_resolved {s : AggState} {a : AggAction} (n : Nat)
    (hI : AggInv s) : ((step s a).2.countP (isResolvedFor n)) ≤ 1 := by
  cases a with
  | text roomId ev h =>
    simp only [step]
    cases hl : lookupKey (getKey roomId ev.sender) s.pending with
    | none =>
      rw [handleText_of_none hl]
      simp [List.countP_cons, isResolvedFor]
    | some ex =>
      rw [handleText_of_some hl]
      by_cases hc : ex.resolve = n <;>
        simp [List.countP_cons, List.countP_nil, isResolvedFor, hc]
  | image roomId ev h =>
    simp only [step]
    cases hl : lookupKey (getKey roomId ev.sender) s.pending with
    | none =>
      rw [handleImage_of_fail (claimForMedia_of_none hl)]
      simp [List.countP_cons, isResolvedFor]
    | some e =>
      by_cases hs : e.state = AggregationState.WAITING_FOR_MEDIA
      · by_cases hb : e.event.content.body = ""
        · rw [handleImage_of_empty hl hs hb]
          by_cases hc : e.resolve = n <;>
            simp [List.countP_cons, List.countP_nil, isResolvedFor, hc]
        · rw [handleImage_of_waiting hl hs hb]
          by_cases hc : e.resolve = n <;>
            simp [List.countP_cons, List.countP_nil, isResolvedFor, hc]
      · rw [handleImage_of_fail (claimForMedia_of_state hl hs)]
        simp [List.countP_cons, isResolvedFor]
  | file roomId ev h =>
    simp only [step]
    cases hl : lookupKey (getKey roomId ev.sender) s.pending with
    | none =>
      rw [handleFile_of_fail (claimForMedia_of_none hl)]
      simp [List.countP_cons, isResolvedFor]
    | some e =>
      by_cases hs : e.state = AggregationState.WAITING_FOR_MEDIA
      · by_cases hb : e.event.content.body = ""
        · rw [handleFile_of_empty hl hs hb]
          by_cases hc : e.resolve = n <;>
            simp [List.countP_cons, List.countP_nil, isResolvedFor, hc]
        · rw [handleFile_of_waiting hl hs hb]
          by_cases hc : e.resolve = n <;>
            simp [List.countP_cons, List.countP_nil, isResolvedFor, hc]
      · rw [handleFile_of_fail (claimForMedia_of_state hl hs)]
        simp [List.countP_cons, isResolvedFor]
  | fire tid =>
    simp only [step]
    cases hf : s.timers.find? (fun t => t.id == tid) with
    | none => simp
    | some t =>
      have htm := List.mem_of_find?_eq_some hf
      obtain ⟨e, hl, hid2, hroom, hev, hh, heid⟩ := hI.timerEntry t htm
      have hw := hI.waiting _ (lookupKey_mem hl)
      show ((fireTimer s t).2.countP (isResolvedFor n)) ≤ 1
      rw [fireTimer_of_waiting hl hw heid]
      by_cases hc : t.id = n <;>
        simp [List.countP_cons, List.countP_nil, isResolvedFor, hc]
  | cleanup =>
    show ((cleanup s).2.countP (isResolvedFor n)) ≤ 1
    simp only [cleanup]
    rw [countP_resolved_flatMap]
    exact List.nodup_iff_count_le_one.mp hI.resolvesNodup n

/-- Over any run from a state satisfying the invariant, each suspended caller
is resumed at most once; callers that are already finalized (id below
`nextId`, no pending entry) are never resumed again. -/
theorem run_resolved_aux (n : Nat) (acts : List AggAction) :
    ∀ s : AggState, AggInv s →
      ((run s acts).2.countP (isResolvedFor n) ≤ 1) ∧
      (n < s.nextId → (∀ kv ∈ s.pending, kv.2.resolve ≠ n) →
        (run s acts).2.countP (isResolvedFor n) = 0) := by
  induction acts with
  | nil =>
    intro s _
    exact ⟨by simp [run], fun _ _ => by simp [run]⟩
  | cons a rest ih =>
    intro s hI
    have hI1 := aggInv_step s a hI
    have hsplit : (run s (a :: rest)).2 =
        (step s a).2 ++ (run (step s a).1 rest).2 := rfl
    constructor
    · by_cases hex : ∃ eff ∈ (step s a).2, isResolvedFor n eff = true
      · obtain ⟨eff, hm, hr⟩ := hex
        have hid := isResolvedFor_entryId hr
        obtain ⟨kv, hkv, hres⟩ := step_emit hI hm hid
        have hlt : n < s.nextId := by
          have h1 : kv.2.timeoutId < s.nextId := hI.idLt kv hkv
          have h2 : kv.2.resolve = kv.2.timeoutId := hI.resolveEq kv hkv
          omega
        have hlt1 : n < (step s a).1.nextId :=
          Nat.lt_of_lt_of_le hlt (step_nextId_le s a)
        have hrem := step_removed hI hm hid
        have h0 := (ih (step s a).1 hI1).2 hlt1 hrem
        have hle := step_countP_resolved (a := a) n hI
        rw [hsplit, List.countP_append]
        omega
      · push_neg at hex
        have h0 : (step s a).2.countP (isResolvedFor n) = 0 :=
          List.countP_eq_zero.mpr (fun eff hm => by
            simp only [Bool.not_eq_true]
            cases hq : isResolvedFor n eff
            · rfl
            · exact absurd hq (hex eff hm))
        have h1 := (ih (step s a).1 hI1).1
        rw [hsplit, List.countP_append]
        omega
    · intro hlt habs
      have h0 : (step s a).2.countP (isResolvedFor n) = 0 :=
        List.countP_eq_zero.mpr (fun eff hm => by
          simp only [Bool.not_eq_true]
          cases hq : isResolvedFor n eff
          · rfl
          · obtain ⟨kv, hkv, hres⟩ := step_emit hI hm (isResolvedFor_entryId hq)
            exact absurd hres (habs kv hkv))
      have h1 := (ih (step s a).1 hI1).2
        (Nat.lt_of_lt_of_le hlt (step_nextId_le s a)) (step_fresh hI hlt habs)
      rw [hsplit, List.countP_append]
      omega

/-- Once an entry's caller id is finalized (below `nextId`, not pending), its
stored text-only callback is never invoked in any continuation. -/
theorem run_textOnly_dead (n : Nat) (acts : List AggAction) :
    ∀ s : AggState, AggInv s → n < s.nextId →
      (∀ kv ∈ s.pending, kv.2.resolve ≠ n) →
      (run s acts).2.countP (isTextOnlyFor n) = 0 := by
  induction acts with
  | nil => intro s _ _ _; simp [run]
  | cons a rest ih =>
    intro s hI hlt habs
    have hI1 := aggInv_step s a hI
    have hsplit : (run s (a :: rest)).2 =
        (step s a).2 ++ (run (step s a).1 rest).2 := rfl
    have h0 : (step s a).2.countP (isTextOnlyFor n) = 0 :=
      List.countP_eq_zero.mpr (fun eff hm => by
        simp only [Bool.not_eq_true]
        cases hq : isTextOnlyFor n eff
        · rfl
        · obtain ⟨kv, hkv, hres⟩ := step_emit hI hm (isTextOnlyFor_entryId hq)
          exact absurd hres (habs kv hkv))
    have h1 := ih (step s a).1 hI1
      (Nat.lt_of_lt_of_le hlt (step_nextId_le s a)) (step_fresh hI hlt habs)
    rw [hsplit, List.countP_append]
    omega

theorem lookupKey_insertKey_ne {β : Type} {k k' : String} (h : k' ≠ k)
    (v : β) (m : List (String × β)) :
    lookupKey k' (insertKey k v m) = lookupKey k' m := by
  induction m with
  | nil => simp [insertKey, lookupKey, Ne.symm h]
  | cons hd tl ih =>
    obtain ⟨k0, v0⟩ := hd
    by_cases h0 : k0 = k
    · subst h0
      simp [insertKey, lookupKey, Ne.symm h]
    · by_cases h1 : k0 = k'
      · simp [insertKey, lookupKey, h0, h1, h]
      · simp [insertKey, lookupKey, h0, h1, ih]

theorem lookupKey_eraseKey_none {β : Type} {k' : String} (k : String)
    {m : List (String × β)} (h : lookupKey k' m = none) :
    lookupKey k' (eraseKey k m) = none := by
  rw [lookupKey_eq_none_iff] at h ⊢
  intro hm
  exact h ((map_fst_eraseKey_sublist k m).mem hm)

/-- A scheduler turn that does not create an entry for `key` (the only
creator is `handleText` under its own key) leaves an unmapped `key`
unmapped. -/
theorem step_lookup_none {key : String} {s : AggState} {a : AggAction}
    (hl : lookupKey key s.pending = none) (hc : createsKey key a = false) :
    lookupKey key (step s a).1.pending = none := by
  cases a with
  | text roomId ev h =>
    have hkey : getKey roomId ev.sender ≠ key := by
      simpa [createsKey] using hc
    simp only [step]
    cases hq : lookupKey (getKey roomId ev.sender) s.pending with
    | none =>
      rw [handleText_of_none hq]
      rw [lookupKey_insertKey_ne (Ne.symm hkey)]
      exact hl
    | some ex =>
      rw [handleText_of_some hq]
      rw [lookupKey_insertKey_ne (Ne.symm hkey)]
      exact lookupKey_eraseKey_none _ hl
  | image roomId ev h =>
    show lookupKey key (handleImage s roomId ev h).1.pending = none
    rw [handleImage_fst]
    rcases claimForMedia_pending s (getKey roomId ev.sender) with hq | hq <;>
      rw [hq]
    · exact hl
    · exact lookupKey_eraseKey_none _ hl
  | file roomId ev h =>
    show lookupKey key (handleFile s roomId ev h).1.pending = none
    rw [handleFile_fst]
    rcases claimForMedia_pending s (getKey roomId ev.sender) with hq | hq <;>
      rw [hq]
    · exact hl
    · exact lookupKey_eraseKey_none _ hl
  | fire tid =>
    simp only [step]
    cases hf : s.timers.find? (fun t => t.id == tid) with
    | none => exact hl
    | some t =>
      show lookupKey key (fireTimer s t).1.pending = none
      rcases fireTimer_pending s t with hq | hq <;> rw [hq]
      · exact hl
      · exact lookupKey_eraseKey_none _ hl
  | cleanup =>
    show lookupKey key ([] : List (String × PendingEntry)) = none
    rfl

/-- A key stays unmapped along any run whose actions never create an entry
for it. -/
theorem run_lookup_none (key : String) (acts : List AggAction) :
    ∀ s : AggState, lookupKey key s.pending = none →
      (∀ a ∈ acts, createsKey key a = false) →
      lookupKey key (run s acts).1.pending = none := by
  induction acts with
  | nil => intro s hl _; exact hl
  | cons a rest ih =>
    intro s hl hc
    have h1 : (run s (a :: rest)).1 = (run (step s a).1 rest).1 := rfl
    rw [h1]
    exact ih (step s a).1
      (step_lookup_none hl (hc a (List.mem_cons_self a rest)))
      (fun a2 ha2 => hc a2 (List.mem_cons_of_mem _ ha2))

/-- With pairwise distinct timer ids, firing a timer id locates that timer. -/
theorem find?_timer_id {l : List Timer} (hnd : (l.map Timer.id).Nodup)
    {t : Timer} (ht : t ∈ l) :
    l.find? (fun u => u.id == t.id) = some t := by
  induction l with
  | nil => simp at ht
  | cons u l ih =>
    simp only [List.map_cons, List.nodup_cons] at hnd
    rcases List.mem_cons.mp ht with rfl | ht
    · exact List.find?_cons_of_pos _ (by simp)
    · have hne : u.id ≠ t.id := by
        intro he
        exact hnd.1 (he ▸ List.mem_map.mpr ⟨t, ht, rfl⟩)
      rw [List.find?_cons_of_neg _ (by simpa using hne)]
      exact ih hnd.2 ht

/-! ### The claims -/

/-- **C1.** For any single pending entry — identified by the unique caller id
allocated at its creation — at most one finalization ever succeeds over any
execution of the aggregator: a successful media claim, a successful timeout
claim, a supersession and a cleanup each resume the entry's suspended caller
(a `resolved` effect carrying its id), and any given id is resumed at most
once in the whole run, so the finalizers are mutually exclusive and every
later claim against that entry fails. -/
theorem claim_C1_at_most_one_finalization (w : Nat) (acts : List AggAction)
    (n : Nat) :
    ((run (mkAggregator w) acts).2.countP (isResolvedFor n)) ≤ 1 :=
  (run_resolved_aux n acts (mkAggregator w) (aggInv_mkAggregator w)).1

/-- **C2 (counterexample).** A text event with empty body is buffered, and an
image from the same (room, sender) arrives while the entry is still waiting:
the claim succeeds (the timer is cancelled and the buffered caller resumed),
yet the media handler is invoked with *no* text — `handleImage` guards on
`claim.success && claim.textContent` and the empty string is falsy in
JavaScript — contradicting the claim that the handler receives the original
buffered text whenever media arrives during the window. -/
theorem claim_C2_counterexample :
    (run (mkAggregator 2000)
        [AggAction.text "!r:hs" wEmptyEvent 0,
         AggAction.image "!r:hs" wImageEvent 1]).2 =
      [Effect.timerStarted 0 2000, Effect.timerCancelled 0,
       Effect.resolved 0 false, Effect.onImage 1 "!r:hs" wImageEvent none] := by
  decide

/-- **C2 (amended).** If `handleImage` or `handleFile` runs for a key holding
a waiting entry whose buffered body is *non-empty*, the caller's media handler
receives the original buffered text, and the buffered text's `onTextOnly`
callback is never invoked — neither in this turn (the emitted effects contain
no `onTextOnly`) nor in any continuation of the run. -/
theorem claim_C2_amended (s : AggState) (roomId : String)
    (ev : MatrixMessageEvent) (h : Nat) (e : PendingEntry)
    (hs : Reachable s)
    (hl : lookupKey (getKey roomId ev.sender) s.pending = some e)
    (hb : e.event.content.body ≠ "") :
    (handleImage s roomId ev h).2 =
      [Effect.timerCancelled e.timeoutId, Effect.resolved e.resolve false,
       Effect.onImage h roomId ev (some e.event.content.body)] ∧
    (∀ acts, ((run (handleImage s roomId ev h).1 acts).2.countP
        (isTextOnlyFor e.resolve)) = 0) ∧
    (handleFile s roomId ev h).2 =
      [Effect.timerCancelled e.timeoutId, Effect.resolved e.resolve false,
       Effect.onFile h roomId ev (some e.event.content.body)] ∧
    (∀ acts, ((run (handleFile s roomId ev h).1 acts).2.countP
        (isTextOnlyFor e.resolve)) = 0) := by
  have hI := reachable_aggInv hs
  have hw : e.state = AggregationState.WAITING_FOR_MEDIA :=
    hI.waiting _ (lookupKey_mem hl)
  have hdead : ∀ acts, ((run { s with
      pending := eraseKey (getKey roomId ev.sender) s.pending,
      timers := s.timers.filter (fun t => decide (t.id ≠ e.timeoutId)) }
        acts).2.countP (isTextOnlyFor e.resolve)) = 0 := by
    intro acts
    refine run_textOnly_dead _ acts _ (aggInv_erase hI hl) ?_
      (resolve_notin_erase hI hl)
    show e.resolve < s.nextId
    have h1 : e.timeoutId < s.nextId := hI.idLt _ (lookupKey_mem hl)
    have h2 : e.resolve = e.timeoutId := hI.resolveEq _ (lookupKey_mem hl)
    omega
  rw [handleImage_of_waiting hl hw hb, handleFile_of_waiting hl hw hb]
  exact ⟨rfl, hdead, rfl, hdead⟩

/-- Witness for C2 (amended) on the concrete buffered state `wState1`. -/
theorem claim_C2_amended_witness :
    (handleImage wState1 "!r:hs" wImageEvent 1).2 =
      [Effect.timerCancelled wEntry1.timeoutId,
       Effect.resolved wEntry1.resolve false,
       Effect.onImage 1 "!r:hs" wImageEvent (some wEntry1.event.content.body)] ∧
    (∀ acts, ((run (handleImage wState1 "!r:hs" wImageEvent 1).1 acts).2.countP
        (isTextOnlyFor wEntry1.resolve)) = 0) ∧
    (handleFile wState1 "!r:hs" wImageEvent 1).2 =
      [Effect.timerCancelled wEntry1.timeoutId,
       Effect.resolved wEntry1.resolve false,
       Effect.onFile 1 "!r:hs" wImageEvent (some wEntry1.event.content.body)] ∧
    (∀ acts, ((run (handleFile wState1 "!r:hs" wImageEvent 1).1 acts).2.countP
        (isTextOnlyFor wEntry1.resolve)) = 0) :=
  claim_C2_amended wState1 "!r:hs" wImageEvent 1 wEntry1
    (Reachable.next _ (Reachable.init 2000)) (by decide) (by decide)

/-- **C3.** `claimForMedia` succeeds iff an entry exists for the key and its
state is `WAITING_FOR_MEDIA`.  On success it returns the buffered event and
its body, cancels the entry's timer, removes the entry from the store, and
resumes the suspended `handleText` caller with `false` — its text-only
callback is not invoked, in this turn or in any continuation.  On failure it
returns the plain not-claimed result and leaves the whole state (store,
entries, timers) unchanged, emitting nothing. -/
theorem claim_C3_media_claim_contract (s : AggState) (key : String)
    (hs : Reachable s) :
    ((claimForMedia s key).1.success = true ↔
      ∃ e, lookupKey key s.pending = some e ∧
        e.state = AggregationState.WAITING_FOR_MEDIA) ∧
    (∀ e, lookupKey key s.pending = some e →
      e.state = AggregationState.WAITING_FOR_MEDIA →
      (claimForMedia s key).1 =
        ⟨true, some e.event, some e.event.content.body⟩ ∧
      lookupKey key (claimForMedia s key).2.1.pending = none ∧
      (∀ u ∈ (claimForMedia s key).2.1.timers, u.id ≠ e.timeoutId) ∧
      (claimForMedia s key).2.2 =
        [Effect.timerCancelled e.timeoutId, Effect.resolved e.resolve false] ∧
      (∀ acts, ((run (claimForMedia s key).2.1 acts).2.countP
          (isTextOnlyFor e.resolve)) = 0)) ∧
    ((claimForMedia s key).1.success = false →
      claimForMedia s key = (⟨false, none, none⟩, s, [])) := by
  have hI := reachable_aggInv hs
  refine ⟨⟨?_, ?_⟩, ?_, ?_⟩
  · intro hsucc
    cases hl : lookupKey key s.pending with
    | none =>
      rw [claimForMedia_of_none hl] at hsucc
      simp at hsucc
    | some e =>
      by_cases hst : e.state = AggregationState.WAITING_FOR_MEDIA
      · exact ⟨e, rfl, hst⟩
      · rw [claimForMedia_of_state hl hst] at hsucc
        simp at hsucc
  · rintro ⟨e, hl, hst⟩
    rw [claimForMedia_of_waiting hl hst]
  · intro e hl hst
    rw [claimForMedia_of_waiting hl hst]
    refine ⟨rfl, lookupKey_eraseKey_self hI.keysNodup, ?_, rfl, ?_⟩
    · intro u hu
      have := (List.mem_filter.mp hu).2
      simpa using this
    · intro acts
      refine run_textOnly_dead _ acts _ (aggInv_erase hI hl) ?_
        (resolve_notin_erase hI hl)
      show e.resolve < s.nextId
      have h1 : e.timeoutId < s.nextId := hI.idLt _ (lookupKey_mem hl)
      have h2 : e.resolve = e.timeoutId := hI.resolveEq _ (lookupKey_mem hl)
      omega
  · intro hfail
    cases hl : lookupKey key s.pending with
    | none => exact claimForMedia_of_none hl
    | some e =>
      by_cases hst : e.state = AggregationState.WAITING_FOR_MEDIA
      · rw [claimForMedia_of_waiting hl hst] at hfail
        simp at hfail
      · exact claimForMedia_of_state hl hst

/-- Witness for C3 on the concrete buffered state `wState1`. -/
theorem claim_C3_witness :
    ((claimForMedia wState1 (getKey "!r:hs" "@u:hs")).1.success = true ↔
      ∃ e, lookupKey (getKey "!r:hs" "@u:hs") wState1.pending = some e ∧
        e.state = AggregationState.WAITING_FOR_MEDIA) ∧
    (∀ e, lookupKey (getKey "!r:hs" "@u:hs") wState1.pending = some e →
      e.state = AggregationState.WAITING_FOR_MEDIA →
      (claimForMedia wState1 (getKey "!r:hs" "@u:hs")).1 =
        ⟨true, some e.event, some e.event.content.body⟩ ∧
      lookupKey (getKey "!r:hs" "@u:hs")
        (claimForMedia wState1 (getKey "!r:hs" "@u:hs")).2.1.pending = none ∧
      (∀ u ∈ (claimForMedia wState1 (getKey "!r:hs" "@u:hs")).2.1.timers,
        u.id ≠ e.timeoutId) ∧
      (claimForMedia wState1 (getKey "!r:hs" "@u:hs")).2.2 =
        [Effect.timerCancelled e.timeoutId, Effect.resolved e.resolve false] ∧
      (∀ acts, ((run (claimForMedia wState1 (getKey "!r:hs" "@u:hs")).2.1
          acts).2.countP (isTextOnlyFor e.resolve)) = 0)) ∧
    ((claimForMedia wState1 (getKey "!r:hs" "@u:hs")).1.success = false →
      claimForMedia wState1 (getKey "!r:hs" "@u:hs") =
        (⟨false, none, none⟩, wState1, [])) :=
  claim_C3_media_claim_contract wState1 (getKey "!r:hs" "@u:hs")
    (Reachable.next _ (Reachable.init 2000))

/-- **C4.** `claimForTimeout` succeeds iff an entry exists for the key, it is
still `WAITING_FOR_MEDIA`, and the buffered event's id equals the id the
timer captured; when an entry exists but its id differs (it was replaced by a
newer text), the claim fails with the plain not-claimed result and the entry
stays in the store untouched. -/
theorem claim_C4_timeout_claim_contract (s : AggState) (key eid : String) :
    ((claimForTimeout s key eid).1.success = true ↔
      ∃ e, lookupKey key s.pending = some e ∧
        e.state = AggregationState.WAITING_FOR_MEDIA ∧
        e.event.event_id = eid) ∧
    (∀ e, lookupKey key s.pending = some e → e.event.event_id ≠ eid →
      claimForTimeout s key eid = (⟨false, none, none⟩, s, []) ∧
      lookupKey key (claimForTimeout s key eid).2.1.pending = some e) := by
  constructor
  · constructor
    · intro hsucc
      cases hl : lookupKey key s.pending with
      | none =>
        rw [claimForTimeout_of_none hl] at hsucc
        simp at hsucc
      | some e =>
        by_cases hid : e.event.event_id = eid
        · by_cases hst : e.state = AggregationState.WAITING_FOR_MEDIA
          · exact ⟨e, rfl, hst, hid⟩
          · rw [claimForTimeout_of_state hl hid hst] at hsucc
            simp at hsucc
        · rw [claimForTimeout_of_mismatch hl hid] at hsucc
          simp at hsucc
    · rintro ⟨e, hl, hst, hid⟩
      rw [claimForTimeout_of_waiting hl hid hst]
  · intro e hl hid
    refine ⟨claimForTimeout_of_mismatch hl hid, ?_⟩
    rw [claimForTimeout_of_mismatch hl hid]
    exact hl

/-- Witness for C4: the buffered state `wState1` with a mismatching id. -/
theorem claim_C4_witness :
    ((claimForTimeout wState1 (getKey "!r:hs" "@u:hs") "$other").1.success =
        true ↔
      ∃ e, lookupKey (getKey "!r:hs" "@u:hs") wState1.pending = some e ∧
        e.state = AggregationState.WAITING_FOR_MEDIA ∧
        e.event.event_id = "$other") ∧
    (∀ e, lookupKey (getKey "!r:hs" "@u:hs") wState1.pending = some e →
      e.event.event_id ≠ "$other" →
      claimForTimeout wState1 (getKey "!r:hs" "@u:hs") "$other" =
        (⟨false, none, none⟩, wState1, []) ∧
      lookupKey (getKey "!r:hs" "@u:hs")
        (claimForTimeout wState1 (getKey "!r:hs" "@u:hs")
          "$other").2.1.pending = some e) :=
  claim_C4_timeout_claim_contract wState1 (getKey "!r:hs" "@u:hs") "$other"

/-- **C5.** When `handleText` finds an existing entry for the key, it cancels
that entry's timer, removes it, resumes its suspended caller with `false` (so
the normal return path does not invoke its text-only callback), instead
invokes the superseded entry's stored `onTextOnly` with the superseded entry's
own room and event in the background (fire-and-forget — in this model callback
invocations are output effects, so a failing callback cannot influence the
aggregator state or the new message's processing), and creates a fresh waiting
entry for the new text event. -/
theorem claim_C5_supersession (s : AggState) (roomId : String)
    (ev : MatrixMessageEvent) (h : Nat) (ex : PendingEntry)
    (hs : Reachable s)
    (hl : lookupKey (getKey roomId ev.sender) s.pending = some ex) :
    (handleText s roomId ev h).2 =
      [Effect.timerCancelled ex.timeoutId,
       Effect.resolved ex.resolve false,
       Effect.onTextOnly ex.resolve ex.onTextOnly ex.roomId ex.event true,
       Effect.timerStarted s.nextId s.aggregationWindowMs] ∧
    (∀ u ∈ (handleText s roomId ev h).1.timers, u.id ≠ ex.timeoutId) ∧
    lookupKey (getKey roomId ev.sender) (handleText s roomId ev h).1.pending =
      some { state := AggregationState.WAITING_FOR_MEDIA, roomId := roomId,
             event := ev, timeoutId := s.nextId, resolve := s.nextId,
             onTextOnly := h } := by
  have hI := reachable_aggInv hs
  rw [handleText_of_some hl]
  refine ⟨rfl, ?_, lookupKey_insertKey_self _ _ _⟩
  intro u hu
  rcases List.mem_append.mp hu with hu | hu
  · have := (List.mem_filter.mp hu).2
    simpa using this
  · simp only [List.mem_singleton] at hu
    subst hu
    have h1 : ex.timeoutId < s.nextId := hI.idLt _ (lookupKey_mem hl)
    show s.nextId ≠ ex.timeoutId
    omega

/-- Witness for C5: a second text supersedes the buffered `wTextEvent`. -/
theorem claim_C5_witness :
    (handleText wState1 "!r:hs" wEmptyEvent 1).2 =
      [Effect.timerCancelled wEntry1.timeoutId,
       Effect.resolved wEntry1.resolve false,
       Effect.onTextOnly wEntry1.resolve wEntry1.onTextOnly wEntry1.roomId
         wEntry1.event true,
       Effect.timerStarted wState1.nextId wState1.aggregationWindowMs] ∧
    (∀ u ∈ (handleText wState1 "!r:hs" wEmptyEvent 1).1.timers,
      u.id ≠ wEntry1.timeoutId) ∧
    lookupKey (getKey "!r:hs" wEmptyEvent.sender)
        (handleText wState1 "!r:hs" wEmptyEvent 1).1.pending =
      some { state := AggregationState.WAITING_FOR_MEDIA, roomId := "!r:hs",
             event := wEmptyEvent, timeoutId := wState1.nextId,
             resolve := wState1.nextId, onTextOnly := 1 } :=
  claim_C5_supersession wState1 "!r:hs" wEmptyEvent 1 wEntry1
    (Reachable.next _ (Reachable.init 2000)) (by decide)

/-- **C6.** `cleanup` empties the store (so `getPendingCount` returns 0
immediately afterwards), cancels the timer of every pending entry — under the
invariant every armed timer belongs to a pending entry, so no timer survives —
and resumes every suspended `handleText` caller with `false`, invoking no
text-only callback (every emitted effect is a cancellation or a resolution). -/
theorem claim_C6_cleanup (s : AggState) (hs : Reachable s) :
    (cleanup s).1.pending = [] ∧
    getPendingCount (cleanup s).1 = 0 ∧
    (cleanup s).1.timers = [] ∧
    (∀ kv ∈ s.pending,
      Effect.timerCancelled kv.2.timeoutId ∈ (cleanup s).2 ∧
      Effect.resolved kv.2.resolve false ∈ (cleanup s).2) ∧
    (cleanup s).2.countP isTextOnlyEffect = 0 := by
  have hI := reachable_aggInv hs
  refine ⟨rfl, rfl, cleanup_timers_nil hI, ?_, ?_⟩
  · intro kv hkv
    constructor
    · exact List.mem_flatMap.mpr ⟨kv, hkv, by simp⟩
    · exact List.mem_flatMap.mpr ⟨kv, hkv, by simp⟩
  · refine List.countP_eq_zero.mpr ?_
    intro eff hm
    have hm2 : eff ∈ s.pending.flatMap (fun kv =>
        [Effect.timerCancelled kv.2.timeoutId,
         Effect.resolved kv.2.resolve false]) := hm
    rw [List.mem_flatMap] at hm2
    obtain ⟨kv, _, hmem⟩ := hm2
    simp only [List.mem_cons, List.mem_singleton, List.not_mem_nil,
      or_false] at hmem
    rcases hmem with rfl | rfl <;> simp [isTextOnlyEffect]

/-- Witness for C6 on the concrete buffered state `wState1`. -/
theorem claim_C6_witness :
    (cleanup wState1).1.pending = [] ∧
    getPendingCount (cleanup wState1).1 = 0 ∧
    (cleanup wState1).1.timers = [] ∧
    (∀ kv ∈ wState1.pending,
      Effect.timerCancelled kv.2.timeoutId ∈ (cleanup wState1).2 ∧
      Effect.resolved kv.2.resolve false ∈ (cleanup wState1).2) ∧
    (cleanup wState1).2.countP isTextOnlyEffect = 0 :=
  claim_C6_cleanup wState1 (Reachable.next _ (Reachable.init 2000))

/-- **C7.** Over an arbitrary store (no reachability assumed, so the "found
but no longer waiting" case is genuinely inhabited): `claimForMedia` on an
unmapped key fails; an entry whose state is no longer `WAITING_FOR_MEDIA`
produces the very same plain not-claimed result `⟨false, none, none⟩` with no
state change as an absent entry, for both claim operations; and once either
claim succeeds on a key, every subsequent media or timeout claim on that key
fails — at every state of every continuation whose turns do not create a new
entry for that key.  The duplicate-free-keys hypothesis is the only shape
assumption on the store (JavaScript `Map` keys are unique). -/
theorem claim_C7_claim_failure_modes (s : AggState) (key eid eid2 : String)
    (hnd : (s.pending.map Prod.fst).Nodup) :
    (lookupKey key s.pending = none →
      claimForMedia s key = (⟨false, none, none⟩, s, []) ∧
      claimForTimeout s key eid = (⟨false, none, none⟩, s, [])) ∧
    (∀ e, lookupKey key s.pending = some e →
      e.state ≠ AggregationState.WAITING_FOR_MEDIA →
      claimForMedia s key = (⟨false, none, none⟩, s, []) ∧
      claimForTimeout s key eid = (⟨false, none, none⟩, s, [])) ∧
    ((claimForMedia s key).1.success = true →
      ∀ acts, (∀ a ∈ acts, createsKey key a = false) →
        claimForMedia (run (claimForMedia s key).2.1 acts).1 key =
          (⟨false, none, none⟩, (run (claimForMedia s key).2.1 acts).1, []) ∧
        claimForTimeout (run (claimForMedia s key).2.1 acts).1 key eid =
          (⟨false, none, none⟩,
           (run (claimForMedia s key).2.1 acts).1, [])) ∧
    ((claimForTimeout s key eid).1.success = true →
      ∀ acts, (∀ a ∈ acts, createsKey key a = false) →
        claimForMedia (run (claimForTimeout s key eid).2.1 acts).1 key =
          (⟨false, none, none⟩,
           (run (claimForTimeout s key eid).2.1 acts).1, []) ∧
        claimForTimeout (run (claimForTimeout s key eid).2.1 acts).1 key
            eid2 =
          (⟨false, none, none⟩,
           (run (claimForTimeout s key eid).2.1 acts).1, [])) := by
  refine ⟨?_, ?_, ?_, ?_⟩
  · intro hl
    exact ⟨claimForMedia_of_none hl, claimForTimeout_of_none hl⟩
  · intro e hl hst
    refine ⟨claimForMedia_of_state hl hst, ?_⟩
    by_cases hid : e.event.event_id = eid
    · exact claimForTimeout_of_state hl hid hst
    · exact claimForTimeout_of_mismatch hl hid
  · intro hsucc acts hacts
    cases hq : lookupKey key s.pending with
    | none =>
      rw [claimForMedia_of_none hq] at hsucc
      simp at hsucc
    | some e =>
      by_cases hst : e.state = AggregationState.WAITING_FOR_MEDIA
      · rw [claimForMedia_of_waiting hq hst]
        refine ⟨claimForMedia_of_none ?_, claimForTimeout_of_none ?_⟩ <;>
          exact run_lookup_none key acts _
            (lookupKey_eraseKey_self hnd) hacts
      · rw [claimForMedia_of_state hq hst] at hsucc
        simp at hsucc
  · intro hsucc acts hacts
    cases hq : lookupKey key s.pending with
    | none =>
      rw [claimForTimeout_of_none hq] at hsucc
      simp at hsucc
    | some e =>
      by_cases hid : e.event.event_id = eid
      · by_cases hst : e.state = AggregationState.WAITING_FOR_MEDIA
        · rw [claimForTimeout_of_waiting hq hid hst]
          refine ⟨claimForMedia_of_none ?_, claimForTimeout_of_none ?_⟩ <;>
            exact run_lookup_none key acts _
              (lookupKey_eraseKey_self hnd) hacts
        · rw [claimForTimeout_of_state hq hid hst] at hsucc
          simp at hsucc
      · rw [claimForTimeout_of_mismatch hq hid] at hsucc
        simp at hsucc

/-- Witness for C7 on `wStaleState`, whose single entry is frozen in the
terminal state `PROCESSED_AS_TEXT`: the "found but no longer waiting" case is
exercised with satisfiable premises and yields the same plain not-claimed
result as an absent entry (the success cases of the claim operations are
exercised concretely by the C3 witness). -/
theorem claim_C7_witness :
    (lookupKey (getKey "!r:hs" "@u:hs") wStaleState.pending = none →
      claimForMedia wStaleState (getKey "!r:hs" "@u:hs") =
        (⟨false, none, none⟩, wStaleState, []) ∧
      claimForTimeout wStaleState (getKey "!r:hs" "@u:hs") "$t1" =
        (⟨false, none, none⟩, wStaleState, [])) ∧
    (∀ e, lookupKey (getKey "!r:hs" "@u:hs") wStaleState.pending = some e →
      e.state ≠ AggregationState.WAITING_FOR_MEDIA →
      claimForMedia wStaleState (getKey "!r:hs" "@u:hs") =
        (⟨false, none, none⟩, wStaleState, []) ∧
      claimForTimeout wStaleState (getKey "!r:hs" "@u:hs") "$t1" =
        (⟨false, none, none⟩, wStaleState, [])) ∧
    ((claimForMedia wStaleState (getKey "!r:hs" "@u:hs")).1.success = true →
      ∀ acts, (∀ a ∈ acts, createsKey (getKey "!r:hs" "@u:hs") a = false) →
        claimForMedia
            (run (claimForMedia wStaleState
              (getKey "!r:hs" "@u:hs")).2.1 acts).1
            (getKey "!r:hs" "@u:hs") =
          (⟨false, none, none⟩,
           (run (claimForMedia wStaleState
             (getKey "!r:hs" "@u:hs")).2.1 acts).1, []) ∧
        claimForTimeout
            (run (claimForMedia wStaleState
              (getKey "!r:hs" "@u:hs")).2.1 acts).1
            (getKey "!r:hs" "@u:hs") "$t1" =
          (⟨false, none, none⟩,
           (run (claimForMedia wStaleState
             (getKey "!r:hs" "@u:hs")).2.1 acts).1, [])) ∧
    ((claimForTimeout wStaleState
        (getKey "!r:hs" "@u:hs") "$t1").1.success = true →
      ∀ acts, (∀ a ∈ acts, createsKey (getKey "!r:hs" "@u:hs") a = false) →
        claimForMedia
            (run (claimForTimeout wStaleState
              (getKey "!r:hs" "@u:hs") "$t1").2.1 acts).1
            (getKey "!r:hs" "@u:hs") =
          (⟨false, none, none⟩,
           (run (claimForTimeout wStaleState
             (getKey "!r:hs" "@u:hs") "$t1").2.1 acts).1, []) ∧
        claimForTimeout
            (run (claimForTimeout wStaleState
              (getKey "!r:hs" "@u:hs") "$t1").2.1 acts).1
            (getKey "!r:hs" "@u:hs") "$x" =
          (⟨false, none, none⟩,
           (run (claimForTimeout wStaleState
             (getKey "!r:hs" "@u:hs") "$t1").2.1 acts).1, [])) :=
  claim_C7_claim_failure_modes wStaleState (getKey "!r:hs" "@u:hs") "$t1"
    "$x" (by decide)

/-- **C8.** If an entry's timer is still armed (no media claim, supersession
or cleanup has happened — each of those cancels it), then firing it succeeds:
the timeout claim wins, the caller's `onTextOnly` is invoked exactly once with
the original room and event, the entry is removed from the store, and the
entry's text-only callback is never invoked again in any continuation. -/
theorem claim_C8_timeout_delivery (s : AggState) (t : Timer)
    (hs : Reachable s) (ht : t ∈ s.timers) :
    step s (AggAction.fire t.id) =
      ({ s with pending := eraseKey t.key s.pending,
                timers := s.timers.filter (fun u => decide (u.id ≠ t.id)) },
       [Effect.resolved t.id true,
        Effect.onTextOnly t.id t.onTextOnly t.roomId t.event false]) ∧
    lookupKey t.key (step s (AggAction.fire t.id)).1.pending = none ∧
    (∀ acts, ((run (step s (AggAction.fire t.id)).1 acts).2.countP
        (isTextOnlyFor t.id)) = 0) := by
  have hI := reachable_aggInv hs
  obtain ⟨e, hl, hid2, hroom, hev, hh, heid⟩ := hI.timerEntry t ht
  have hw : e.state = AggregationState.WAITING_FOR_MEDIA :=
    hI.waiting _ (lookupKey_mem hl)
  have hstep : step s (AggAction.fire t.id) = fireTimer s t := by
    simp only [step]
    rw [find?_timer_id hI.timerIdsNodup ht]
  rw [hstep, fireTimer_of_waiting hl hw heid]
  refine ⟨rfl, lookupKey_eraseKey_self hI.keysNodup, ?_⟩
  intro acts
  have hres : e.resolve = t.id :=
    (hI.resolveEq _ (lookupKey_mem hl)).trans hid2
  have hpost := aggInv_erase hI hl
  rw [hid2] at hpost
  refine run_textOnly_dead _ acts _ hpost ?_ ?_
  · show t.id < s.nextId
    exact hI.timerLt t ht
  · have habs := resolve_notin_erase hI hl
    rw [hres] at habs
    exact habs

/-- Witness for C8 on the concrete armed timer `wTimer1` of `wState1`. -/
theorem claim_C8_witness :
    step wState1 (AggAction.fire wTimer1.id) =
      ({ wState1 with
          pending := eraseKey wTimer1.key wState1.pending,
          timers := wState1.timers.filter
            (fun u => decide (u.id ≠ wTimer1.id)) },
       [Effect.resolved wTimer1.id true,
        Effect.onTextOnly wTimer1.id wTimer1.onTextOnly wTimer1.roomId
          wTimer1.event false]) ∧
    lookupKey wTimer1.key (step wState1 (AggAction.fire wTimer1.id)).1.pending
      = none ∧
    (∀ acts, ((run (step wState1 (AggAction.fire wTimer1.id)).1 acts).2.countP
        (isTextOnlyFor wTimer1.id)) = 0) :=
  claim_C8_timeout_delivery wState1 wTimer1
    (Reachable.next _ (Reachable.init 2000)) (by decide)

/-- **C9.** The key `roomId + ":" + senderId` is not injective: the distinct
pairs `("a:b", "c")` and `("a", "b:c")` map to the same key `"a:b:c"`, and a
text buffered under the first pair is actually claimed by an image arriving
under the second pair — the buffered body crosses into the other pair's media
handler. -/
theorem claim_C9_key_collision :
    getKey "a:b" "c" = getKey "a" "b:c" ∧
    ("a:b", "c") ≠ (("a" : String), ("b:c" : String)) ∧
    (run (mkAggregator 2000)
        [AggAction.text "a:b" wColl1 0, AggAction.image "a" wColl2 1]).2 =
      [Effect.timerStarted 0 2000, Effect.timerCancelled 0,
       Effect.resolved 0 false,
       Effect.onImage 1 "a" wColl2 (some "collide")] := by
  refine ⟨by decide, by decide, by decide⟩

/-- **C10.** In every reachable state, every stored pending entry is still in
state `WAITING_FOR_MEDIA` — every transition to a terminal state is followed
by removal within the same scheduler turn — so `getState` returns either
`WAITING_FOR_MEDIA` or nothing, never a terminal state. -/
theorem claim_C10_store_only_waiting (s : AggState) (hs : Reachable s) :
    (∀ kv ∈ s.pending, kv.2.state = AggregationState.WAITING_FOR_MEDIA) ∧
    (∀ roomId senderId : String,
      getState s roomId senderId = some AggregationState.WAITING_FOR_MEDIA ∨
      getState s roomId senderId = none) := by
  have hI := reachable_aggInv hs
  refine ⟨hI.waiting, ?_⟩
  intro roomId senderId
  cases hl : lookupKey (getKey roomId senderId) s.pending with
  | none =>
    right
    simp [getState, hl]
  | some e =>
    left
    have h2 : e.state = AggregationState.WAITING_FOR_MEDIA :=
      hI.waiting _ (lookupKey_mem hl)
    simp [getState, hl, h2]

/-- Witness for C10 on the concrete buffered state `wState1`. -/
theorem claim_C10_witness :
    (∀ kv ∈ wState1.pending,
      kv.2.state = AggregationState.WAITING_FOR_MEDIA) ∧
    (∀ roomId senderId : String,
      getState wState1 roomId senderId =
          some AggregationState.WAITING_FOR_MEDIA ∨
      getState wState1 roomId senderId = none) :=
  claim_C10_store_only_waiting wState1
    (Reachable.next _ (Reachable.init 2000))
